import Mathlib

/-!
Verification of the codeagent-wrapper core against its specification.

The development shallowly embeds the relevant source modules:

* `src/executor.mjs` — `runTask` exit-code derivation, timeout arming,
  `terminateProcess`, `topologicalSort`, `withConcurrencyLimit`/`runParallel`;
* `src/parser.mjs` (shipped concatenated into `backend.mjs`) — `detectBackend`,
  `extractMessage`, `extractSessionId`, `parseJSONStream`;
* `src/signal.mjs` — `setupSignalHandlers` and its cleanup;
* `src/logger.mjs` — the `Logger` queue/flush state machine.

JavaScript mutable state is translated to explicit state passing; `Map`s become
insertion-ordered association lists with replace-on-set semantics; promises and
stream callbacks become traces recorded in the state; `JSON.parse` is treated as
an oracle (a line either fails to decode or yields a JSON value).
-/

namespace CodeagentWrapper

/-! ### Task executor: exit-code derivation (`src/executor.mjs`, `runTask`)

The raw exit code is resolved from the child-process events
(`child.on('close', code => resolve(code ?? 1))`,
`child.on('error', _ => resolve(127))`), and the final code applies the
`timedOut` / `interrupted` overrides. -/

/-- Raw exit code resolved while awaiting the child: on a successful spawn the
child's close code with `null` mapped to 1 (`code ?? 1`); on a spawn error
(command not found) the promise resolves 127. -/
def rawExitCode (spawnOk : Bool) (childCode : Option Int) : Int :=
  if spawnOk then childCode.getD 1 else 127

/-- Final exit code of `runTask`: `if (timedOut) 124 else if (interrupted) 130
else exitCode`, where `exitCode` is `rawExitCode`. -/
def runTaskFinalExitCode (timedOut interrupted spawnOk : Bool)
    (childCode : Option Int) : Int :=
  let exitCode := rawExitCode spawnOk childCode
  if timedOut then 124 else if interrupted then 130 else exitCode

/-- Timer arming in `runTask`: the timeout timer is created only under
`if (timeout > 0)`. -/
def timeoutArmed (timeout : Int) : Bool := timeout > 0

/-- The `timedOut` flag can only be set by the timer callback, so it is the
conjunction of the timer being armed and the timer actually firing before the
child exits. -/
def timedOutFlag (timeout : Int) (timerFired : Bool) : Bool :=
  timeoutArmed timeout && timerFired

/-! ### `terminateProcess` (`src/executor.mjs`)

A child process is modelled by the fields the function reads: `hasPid`
(`child.pid` truthy), `killed` (Node semantics: set to `true` once a signal has
been *successfully sent* via `child.kill`, regardless of whether the process
dies), and the ghost field `alive` (whether the OS process is actually still
running — not directly readable from `ChildProcess`). -/

structure ChildProcess where
  hasPid : Bool
  killed : Bool
  alive : Bool
  deriving DecidableEq, Repr

/-- Node `child.kill(sig)`: sending succeeds precisely when the process can be
signalled (it is alive); on success the `killed` flag becomes `true`. The
signal itself does not synchronously change `alive` (the child may ignore or
delay handling it). -/
def ChildProcess.kill (c : ChildProcess) : ChildProcess :=
  if c.alive then { c with killed := true } else c

/-- Immediate part of `terminateProcess`: the guard
`if (!child || child.killed || !child.pid) return;` followed by the first
kill (`child.kill()` on win32, `child.kill('SIGTERM')` otherwise — both send
the terminate signal). Returns the child state and the list of signals sent. -/
def terminateProcess (c : ChildProcess) : ChildProcess × List String :=
  if !c.hasPid || c.killed then (c, [])
  else (c.kill, ["SIGTERM"])

/-- Delayed part of `terminateProcess`: the `setTimeout` closure runs after the
1-second grace period (`FORCE_KILL_DELAY`) and sends SIGKILL only under
`if (!child.killed)`. `cAtGrace` is the child state when the timer fires. -/
def terminateForceKill (cAtGrace : ChildProcess) : ChildProcess × List String :=
  if !cAtGrace.killed then (cAtGrace.kill, ["SIGKILL"]) else (cAtGrace, [])

/-! ### `setupSignalHandlers` (`src/signal.mjs`)

Node's per-process listener table is a list of `(eventName, listener)`
registrations; listener *function objects* are modelled by allocation-order
identities (`Nat`). `setupSignalHandlers` allocates the named `handler`
closure first, then registers a *fresh* anonymous wrapper
`() => handler(signal)` for each signal; the returned cleanup calls
`process.removeListener(signal, handler)` with the named closure. -/

structure ProcessListeners where
  entries : List (String × Nat)
  deriving DecidableEq, Repr

/-- Number of listeners registered for a signal (`process.listenerCount`). -/
def listenerCount (st : ProcessListeners) (sig : String) : Nat :=
  (st.entries.filter (fun e => e.1 = sig)).length

/-- `process.on(signal, fn)`: appends a registration. -/
def addListener (st : ProcessListeners) (sig : String) (fid : Nat) :
    ProcessListeners :=
  ⟨st.entries ++ [(sig, fid)]⟩

/-- Remove one occurrence of a `(sig, fid)` registration from a listener list
(`process.removeListener` removes at most one matching instance; with no
matching instance it is a no-op). -/
def removeOne (sig : String) (fid : Nat) : List (String × Nat) → List (String × Nat)
  | [] => []
  | e :: rest =>
    if e.1 = sig ∧ e.2 = fid then rest
    else e :: removeOne sig fid rest

/-- `process.removeListener(signal, fn)` on the listener table. -/
def removeListener (st : ProcessListeners) (sig : String) (fid : Nat) :
    ProcessListeners :=
  ⟨removeOne sig fid st.entries⟩

/-- Signals handled: `['SIGINT', 'SIGTERM']`, plus `'SIGHUP'` off Windows. -/
def signalsHandled (win32 : Bool) : List String :=
  ["SIGINT", "SIGTERM"] ++ (if win32 then [] else ["SIGHUP"])

/-- Install step of `setupSignalHandlers`: `base` is the next fresh closure
identity (all previously allocated closures have identity `< base`). The named
`handler` closure gets identity `base`; the loop then registers a fresh wrapper
closure (identities `base + 1, base + 2, …`) for each signal. Returns the new
listener table together with the identity that the cleanup closure captured,
namely `handler`'s. -/
def setupSignalHandlers (win32 : Bool) (base : Nat) (st : ProcessListeners) :
    ProcessListeners × Nat :=
  let handlerId := base
  let sigs := signalsHandled win32
  let st' := (sigs.enum.foldl
    (fun s p => addListener s p.2 (handlerId + 1 + p.1)) st)
  (st', handlerId)

/-- The returned `cleanup`: `process.removeListener(signal, handler)` for each
handled signal, where `handler` is the *named* closure (identity `handlerId`) —
not the anonymous wrappers that were actually registered. -/
def signalCleanup (win32 : Bool) (handlerId : Nat) (st : ProcessListeners) :
    ProcessListeners :=
  (signalsHandled win32).foldl (fun s sig => removeListener s sig handlerId) st

/-! ### Async logger (`src/logger.mjs`, class `Logger`)

The mutable private fields become an explicit state. Two ghost fields record
the observable effects: `written` collects the chunk passed to each effective
`stream.write`, and `flushCalls` counts invocations of `#flush` (including
those that return early). The write stream's backpressure answer is modelled
by `writeOk`, indexed by the number of writes issued so far. -/

structure LoggerState where
  closed : Bool
  queue : List String
  errorEntries : List String
  drainPending : Bool
  pendingWrites : Nat
  written : List String
  flushCalls : Nat
  deriving DecidableEq, Repr

/-- A fresh `Logger` right after the constructor ran. -/
def LoggerState.initial : LoggerState :=
  ⟨false, [], [], false, 0, [], 0⟩

structure LoggerConfig where
  queueSize : Nat
  maxErrorEntries : Nat
  writeOk : Nat → Bool

/-- Default configuration: `QUEUE_SIZE = 100`, `MAX_ERROR_ENTRIES = 100`, and a
sink that never signals backpressure. -/
def LoggerConfig.default : LoggerConfig :=
  ⟨100, 100, fun _ => true⟩

namespace Logger

/-- `#format`: `[<timestamp>] [<LEVEL>] <message>` (the timestamp is taken as a
parameter instead of reading the clock). -/
def format (level message timestamp : String) : String :=
  "[" ++ timestamp ++ "] [" ++ level.toUpper ++ "] " ++ message

/-- `#flush`: early-return when the queue is empty or a drain is pending (the
stream exists for the life of the state); otherwise drain the queue, join with
newlines plus a trailing newline, count the pending write, and set
`drainPending` when the stream reports backpressure. -/
def flush (cfg : LoggerConfig) (st : LoggerState) : LoggerState :=
  let st := { st with flushCalls := st.flushCalls + 1 }
  if st.queue = [] ∨ st.drainPending then st
  else
    let text := String.intercalate "\n" st.queue ++ "\n"
    { st with
      queue := []
      pendingWrites := st.pendingWrites + 1
      written := st.written ++ [text]
      drainPending := !cfg.writeOk st.written.length }

/-- `#log(level, message)`: drop when closed; push the formatted entry; for
`error`/`warn` additionally record it in `errorEntries` (batch-trimmed to the
last `MAX_ERROR_ENTRIES` once the length exceeds twice that), then flush
immediately and return; otherwise flush only when the queue has reached
`QUEUE_SIZE`. -/
def log (cfg : LoggerConfig) (st : LoggerState)
    (level message timestamp : String) : LoggerState :=
  if st.closed then st
  else
    let entry := format level message timestamp
    let st := { st with queue := st.queue ++ [entry] }
    if level = "error" ∨ level = "warn" then
      let st := { st with errorEntries := st.errorEntries ++ [entry] }
      let st :=
        if cfg.maxErrorEntries * 2 < st.errorEntries.length then
          { st with errorEntries :=
              st.errorEntries.drop (st.errorEntries.length - cfg.maxErrorEntries) }
        else st
      flush cfg st
    else
      if cfg.queueSize ≤ st.queue.length then flush cfg st else st

/-- `info(message)`. -/
def info (cfg : LoggerConfig) (st : LoggerState) (message timestamp : String) :
    LoggerState :=
  log cfg st "info" message timestamp

/-- `warn(message)`. -/
def warn (cfg : LoggerConfig) (st : LoggerState) (message timestamp : String) :
    LoggerState :=
  log cfg st "warn" message timestamp

/-- `error(message)`. -/
def error (cfg : LoggerConfig) (st : LoggerState) (message timestamp : String) :
    LoggerState :=
  log cfg st "error" message timestamp

/-- `debug(message)`: forwards to `#log` only when `process.env.DEBUG` is set. -/
def debug (debugEnv : Bool) (cfg : LoggerConfig) (st : LoggerState)
    (message timestamp : String) : LoggerState :=
  if debugEnv then log cfg st "debug" message timestamp else st

end Logger

/-! ### JSON stream parser (`src/parser.mjs`, shipped inside `backend.mjs`)

Decoded JSON values are modelled by `JValue`. Property access `event.key`
yields the field of an object and `undefined` (here `none`) on everything
else; the extractors' `if (event.f) return event.f` patterns read
string-valued fields (the unified contract of §4.2 takes every extracted
fragment to be a string), so `truthyStr` returns a field exactly when it is a
non-empty string. `JSON.parse` applied to a *nested* string (the
`typeof event.item === 'string'` branches) is an oracle parameter
`parse : String → Option JValue`. -/

inductive JValue where
  | null : JValue
  | bool (b : Bool) : JValue
  | num (n : Int) : JValue
  | str (s : String) : JValue
  | arr (elems : List JValue) : JValue
  | obj (fields : List (String × JValue)) : JValue

namespace JValue

/-- JavaScript truthiness of a defined value (`NaN` is outside the model). -/
def truthy : JValue → Bool
  | .null => false
  | .bool b => b
  | .num n => n != 0
  | .str s => s ≠ ""
  | .arr _ => true
  | .obj _ => true

/-- Property read `v.key`: the first binding of an object, `none` otherwise. -/
def get : JValue → String → Option JValue
  | .obj fields, key => (fields.find? (fun f => f.1 = key)).map (fun f => f.2)
  | _, _ => none

/-- Whether `v.key` is defined and truthy (`if (v.key)`). -/
def getTruthy (v : JValue) (key : String) : Bool :=
  ((v.get key).map truthy).getD false

/-- Whether `v.key` is defined at all (`v.key !== undefined`). -/
def getDefined (v : JValue) (key : String) : Bool :=
  (v.get key).isSome

/-- Strict string comparison `v.key === s`. -/
def strEq (v : JValue) (key s : String) : Bool :=
  match v.get key with
  | some (.str s') => s' = s
  | _ => false

/-- A truthy string field: `if (v.key) return v.key` for a field the contract
takes to be a string. -/
def truthyStr (v : JValue) (key : String) : Option String :=
  match v.get key with
  | some (.str s) => if s = "" then none else some s
  | _ => none

/-- Whether the value is a JSON container; a line whose first non-whitespace
byte is `{` or `[` can only decode to an object or an array, so these are the
only values the line filter lets through. -/
def isContainer : JValue → Bool
  | .obj _ => true
  | .arr _ => true
  | _ => false

end JValue

/-- Backend flavor tags. -/
inductive BackendType where
  | codex | claude | gemini | opencode | unknown
  deriving DecidableEq, Repr

/-- `detectBackend(event)`: classification rules applied in order. -/
def detectBackend (event : JValue) : BackendType :=
  if event.getTruthy "thread_id" ||
      (event.getTruthy "item" &&
        (((event.get "item").map (fun item => item.getTruthy "type")).getD false)) then
    .codex
  else if event.getTruthy "subtype" || event.getTruthy "result" ||
      (event.strEq "type" "result" && event.getTruthy "session_id") then
    .claude
  else if event.getTruthy "role" || event.getDefined "delta" ||
      (event.strEq "type" "init" && event.getTruthy "session_id") then
    .gemini
  else if event.getTruthy "sessionID" && event.getTruthy "part" then
    .opencode
  else .unknown

/-- `extractMessage(event, backendType)`; `parse` is the `JSON.parse` oracle
for the nested-string branches (`catch { return '' }` is `none`). -/
def extractMessage (parse : String → Option JValue) (event : JValue) :
    BackendType → String
  | .codex =>
    match event.get "item" with
    | some (.str s) =>
      match parse s with
      | some item => ((item.truthyStr "content").orElse
          (fun _ => item.truthyStr "text")).getD ""
      | none => ""
    | some item =>
      match item.truthyStr "content" with
      | some c => c
      | none =>
        match item.truthyStr "text" with
        | some t => t
        | none =>
          if item.strEq "type" "command_execution" &&
              item.getTruthy "aggregated_output" then
            (item.truthyStr "aggregated_output").getD ""
          else ""
    | none => ""
  | .claude =>
    match event.truthyStr "result" with
    | some r => r
    | none =>
      match event.truthyStr "content" with
      | some c => c
      | none =>
        match event.get "tool_use_result" with
        | some tur => (tur.truthyStr "stdout").getD ""
        | none => ""
  | .gemini =>
    match event.truthyStr "content" with
    | some c => c
    | none =>
      if event.strEq "type" "tool_result" && event.getTruthy "output" then
        (event.truthyStr "output").getD ""
      else ""
  | .opencode =>
    match event.get "part" with
    | some (.str s) =>
      match parse s with
      | some part => ((part.truthyStr "text").orElse
          (fun _ => part.truthyStr "content")).getD ""
      | none => ""
    | some part =>
      match part.truthyStr "text" with
      | some t => t
      | none =>
        match part.truthyStr "content" with
        | some c => c
        | none =>
          if part.strEq "type" "tool" &&
              (((part.get "state").map (fun st => st.getTruthy "output")).getD false) then
            (((part.get "state").bind (fun st => st.truthyStr "output")).getD "")
          else ""
    | none => ""
  | .unknown =>
    ((event.truthyStr "content").orElse
      (fun _ => (event.truthyStr "text").orElse
        (fun _ => event.truthyStr "message"))).getD ""

/-- `extractSessionId(event, backendType)`. -/
def extractSessionId (event : JValue) : BackendType → String
  | .codex => (event.truthyStr "thread_id").getD ""
  | .claude => (event.truthyStr "session_id").getD ""
  | .gemini => (event.truthyStr "session_id").getD ""
  | .opencode => (event.truthyStr "sessionID").getD ""
  | .unknown =>
    ((event.truthyStr "session_id").orElse
      (fun _ => (event.truthyStr "sessionId").orElse
        (fun _ => event.truthyStr "thread_id"))).getD ""

/-- `MAX_MESSAGE_SIZE = 10 * 1024 * 1024` (string lengths stand in for the
JavaScript length measure). -/
def MAX_MESSAGE_SIZE : Nat := 10 * 1024 * 1024

/-- One line handed to `parseJSONStream` by the readline interface. The
`JSON.parse` call on a whole line is treated as an oracle at the input
boundary: `raw s` is a line that does not decode (noise, whitespace,
truncated JSON); `event v` is a line that decodes to `v`. -/
inductive JLine where
  | raw (s : String) : JLine
  | event (v : JValue) : JLine

/-- Streaming state of `parseJSONStream`, with ghost traces for the callback
invocations: `eventTrace` records each `onEvent(event, detectedBackend)` call
and `messageTrace` each `onMessage(message)` call, in order. -/
structure ParseState where
  messages : List String
  messagesSize : Nat
  sessionId : String
  detectedBackend : BackendType
  cachedBackend : Option BackendType
  eventTrace : List (JValue × BackendType)
  messageTrace : List String

def ParseState.initial : ParseState :=
  ⟨[], 0, "", .unknown, none, [], []⟩

/-- Final value of `parseJSONStream`. -/
structure ParsedResult where
  message : String
  sessionId : String
  backendType : BackendType
  deriving DecidableEq, Repr

/-- The `detectedBackend` value used for one event: the cached flavor when one
exists, otherwise (while still `unknown`) the classification of this event. -/
def stepFlavor (st : ParseState) (v : JValue) : BackendType :=
  match st.cachedBackend with
  | some c => c
  | none =>
    if st.detectedBackend = .unknown then detectBackend v
    else st.detectedBackend

/-- Loop body of `parseJSONStream` for one line. A `raw` line is skipped
(either empty after trimming, filtered out by the first-character check, or
swallowed by the `catch`); an `event` line is processed when it passed the
`{`/`[` fast filter, i.e. when the decoded value is a container. -/
def parseLine (parse : String → Option JValue) (st : ParseState) :
    JLine → ParseState
  | .raw _ => st
  | .event v =>
    if !v.isContainer then st
    else
      let detected := stepFlavor st v
      let cached :=
        match st.cachedBackend with
        | some c => some c
        | none =>
          if st.detectedBackend = .unknown then some (detectBackend v)
          else st.cachedBackend
      let st := { st with
        detectedBackend := detected
        cachedBackend := cached
        eventTrace := st.eventTrace ++ [(v, detected)] }
      let message := extractMessage parse v detected
      let st :=
        if message ≠ "" then
          let st :=
            if st.messagesSize + message.length ≤ MAX_MESSAGE_SIZE then
              { st with
                messages := st.messages ++ [message]
                messagesSize := st.messagesSize + message.length }
            else st
          { st with messageTrace := st.messageTrace ++ [message] }
        else st
      let eventSessionId := extractSessionId v detected
      if eventSessionId ≠ "" ∧ st.sessionId = "" then
        { st with sessionId := eventSessionId }
      else st

/-- `parseJSONStream(stream, options)` over the decoded line sequence. -/
def parseJSONStreamState (parse : String → Option JValue)
    (lines : List JLine) : ParseState :=
  lines.foldl (parseLine parse) ParseState.initial

/-- The returned `ParsedResult`:
`{ message: messages.join(''), sessionId, backendType: detectedBackend }`. -/
def parseJSONStream (parse : String → Option JValue)
    (lines : List JLine) : ParsedResult :=
  let st := parseJSONStreamState parse lines
  ⟨String.join st.messages, st.sessionId, st.detectedBackend⟩

/-- The events of a line sequence that survive decoding and the fast filter. -/
def decodedEvents (lines : List JLine) : List JValue :=
  lines.filterMap fun l =>
    match l with
    | .raw _ => none
    | .event v => if v.isContainer then some v else none

/-! ### JavaScript `Map` as an insertion-ordered association list -/

/-- A JavaScript `Map` with string keys: an insertion-ordered association
list; `set` replaces in place when the key is present and appends otherwise. -/
abbrev SMap (α : Type) : Type := List (String × α)

/-- `map.get(k)` (with `undefined` as `none`). -/
def SMap.get? (m : SMap α) (k : String) : Option α :=
  (List.find? (fun e => e.1 = k) m).map (fun e => e.2)

/-- `map.has(k)`. -/
def SMap.has (m : SMap α) (k : String) : Bool :=
  (SMap.get? m k).isSome

/-- `map.set(k, v)`. -/
def SMap.set : SMap α → String → α → SMap α
  | [], k, v => [(k, v)]
  | e :: rest, k, v => if e.1 = k then (k, v) :: rest else e :: SMap.set rest k v

/-! ### DAG scheduler (`src/executor.mjs`, `topologicalSort` / `runParallel`)

`TaskSpec` keeps the fields the scheduler reads. The per-task runner closure
of `runParallel` (agent-config resolution, `selectBackend`, `runTask`) is
abstracted by an oracle `exec : TaskSpec → TaskResult`; `withConcurrencyLimit`
returns the results in task order regardless of the worker bound
(`results.push(promise)` in submission order plus `Promise.all`), so a layer's
results are `runnable.map exec`. -/

structure TaskSpec where
  id : String
  dependencies : List String := []
  task : String := ""
  backend : String := ""
  model : String := ""
  agent : String := ""
  deriving DecidableEq, Repr

/-- The two graph-build failures of `topologicalSort`; both throw an `Error`
with `error.exitCode = 2`. -/
inductive TopoError where
  | unknownDependency (dep requiredBy : String)
  | circularDependency
  deriving DecidableEq, Repr

def TopoError.exitCode : TopoError → Int := fun _ => 2

/-- `new Map(tasks.map(t => [t.id, t]))`. -/
def taskMapOf (tasks : List TaskSpec) : SMap TaskSpec :=
  tasks.foldl (fun m t => SMap.set m t.id t) []

/-- `new Map(tasks.map(t => [t.id, 0]))`. -/
def inDegreeZero (tasks : List TaskSpec) : SMap Int :=
  tasks.foldl (fun m t => SMap.set m t.id 0) []

/-- `new Map(tasks.map(t => [t.id, []]))`. -/
def adjListEmpty (tasks : List TaskSpec) : SMap (List String) :=
  tasks.foldl (fun m t => SMap.set m t.id []) []

/-- Inner loop of the graph build: for each `dep` of the task `tid`, throw
`UnknownDependency` when `dep` is not a task id, otherwise push `tid` onto
`adjList.get(dep)` and increment `inDegree.get(tid)`. -/
def addTaskEdges (taskMap : SMap TaskSpec) (tid : String) :
    List String → SMap (List String) × SMap Int →
    Except TopoError (SMap (List String) × SMap Int)
  | [], st => .ok st
  | dep :: rest, (adj, deg) =>
    if SMap.has taskMap dep then
      addTaskEdges taskMap tid rest
        (SMap.set adj dep (((SMap.get? adj dep).getD []) ++ [tid]),
         SMap.set deg tid (((SMap.get? deg tid).getD 0) + 1))
    else .error (.unknownDependency dep tid)

/-- Outer loop of the graph build over all tasks. -/
def buildGraph (taskMap : SMap TaskSpec) :
    List TaskSpec → SMap (List String) × SMap Int →
    Except TopoError (SMap (List String) × SMap Int)
  | [], st => .ok st
  | t :: rest, st => do
    let st1 ← addTaskEdges taskMap t.id t.dependencies st
    buildGraph taskMap rest st1

/-- Queue seeding: every id whose in-degree is 0, in `inDegree` iteration
order (insertion order = task order). -/
def initQueue (deg : SMap Int) : List String :=
  (deg.filter (fun e => e.2 = 0)).map (fun e => e.1)

/-- `for (const dependent of adjList.get(id))`: decrement the dependent's
in-degree; enqueue it when the new degree is exactly 0 (degrees are JavaScript
numbers, hence `Int`: a further decrement past 0 gives −1, not another 0). -/
def relaxSuccessors (deg : SMap Int) : List String → SMap Int × List String
  | [] => (deg, [])
  | d :: rest =>
    let nd := ((SMap.get? deg d).getD 0) - 1
    let deg1 := SMap.set deg d nd
    let (deg2, enq) := relaxSuccessors deg1 rest
    (deg2, (if nd = 0 then [d] else []) ++ enq)

/-- Inner `while (head < layerEnd)` loop: process each id of the current layer
snapshot, collecting the ids enqueued during the layer (they sit after
`layerEnd`, hence form the next snapshot). -/
def processLayerIds (adj : SMap (List String)) (deg : SMap Int) :
    List String → SMap Int × List String
  | [] => (deg, [])
  | id :: rest =>
    let (deg1, enq1) := relaxSuccessors deg ((SMap.get? adj id).getD [])
    let (deg2, enq2) := processLayerIds adj deg1 rest
    (deg2, enq1 ++ enq2)

/-- Outer `while (head < queue.length)` loop as layered recursion: each
iteration snapshots the queue tail as one layer. Every iteration processes a
non-empty frontier of never-before-enqueued ids (proved below), so
`tasks.length` iterations always suffice; the fuel only makes the recursion
structural. -/
def kahnLayers (adj : SMap (List String)) :
    Nat → SMap Int → List String → List (List String)
  | _, _, [] => []
  | 0, _, _ => []
  | fuel + 1, deg, frontier =>
    let (deg1, next) := processLayerIds adj deg frontier
    frontier :: kahnLayers adj fuel deg1 next

/-- `topologicalSort(tasks)`: build the graph (throwing `UnknownDependency`),
run Kahn's algorithm with layer snapshots, and throw `CircularDependency`
when the number of placed ids differs from `tasks.length`; layers of ids are
resolved to tasks through `taskMap.get(id)`. -/
def topologicalSort (tasks : List TaskSpec) :
    Except TopoError (List (List TaskSpec)) := do
  let taskMap := taskMapOf tasks
  let (adj, deg) ← buildGraph taskMap tasks (adjListEmpty tasks, inDegreeZero tasks)
  let queue := initQueue deg
  let layersIds := kahnLayers adj tasks.length deg queue
  let processed := (layersIds.map List.length).sum
  if processed = tasks.length then
    .ok (layersIds.map (fun layer => layer.filterMap (fun id => SMap.get? taskMap id)))
  else
    .error .circularDependency

/-- Unified task result (`TaskResult`), with the metric hook fields `runTask`
and the skip branch populate. -/
structure TaskResult where
  taskId : String
  exitCode : Int
  message : String := ""
  sessionId : String := ""
  error : String := ""
  logPath : String := ""
  coverage : String := ""
  coverageNum : Int := 0
  filesChanged : List String := []
  keyOutput : String := ""
  testsPassed : Int := 0
  testsFailed : Int := 0
  deriving DecidableEq, Repr

/-- The synthesized result `runParallel` records for a skipped task. -/
def skippedResult (taskId : String) : TaskResult :=
  { taskId := taskId
    exitCode := 1
    message := "Skipped due to dependency failure"
    sessionId := ""
    error := "Dependency failed"
    logPath := "" }

/-- Dependency test of the runnable filter: a dependency blocks its dependent
when it was skipped, or when its completed result has a non-zero exit code. -/
def depBlocked (completed : SMap TaskResult) (skipped : List String)
    (deps : List String) : Bool :=
  deps.any fun dep =>
    skipped.contains dep ||
    (match SMap.get? completed dep with
     | some r => r.exitCode != 0
     | none => false)

/-- `layer.filter(...)` with its side effect on `skippedTasks`: blocked tasks
are added to the skipped set (a JavaScript `Set`: adding a present element is
a no-op) and excluded from the runnable list. -/
def filterRunnable (completed : SMap TaskResult) :
    List String → List TaskSpec → List TaskSpec × List String
  | skipped, [] => ([], skipped)
  | skipped, t :: rest =>
    if depBlocked completed skipped t.dependencies then
      let skipped1 := if skipped.contains t.id then skipped else skipped ++ [t.id]
      filterRunnable completed skipped1 rest
    else
      let (run, sk) := filterRunnable completed skipped rest
      (t :: run, sk)

/-- Scheduler state across layers; `executed` is a ghost trace of the task ids
for which the runner closure (and hence a child process) was actually started. -/
structure SchedState where
  completed : SMap TaskResult
  skipped : List String
  results : List TaskResult
  executed : List String
  deriving DecidableEq, Repr

/-- One layer of `runParallel`: filter runnables, run them (results in task
order), record the results into `completedTasks`/`allResults`, then append the
synthesized result for each task of the layer that is skipped and has no
completed result. -/
def processLayer (exec : TaskSpec → TaskResult) (st : SchedState)
    (layer : List TaskSpec) : SchedState :=
  let (runnable, skipped1) := filterRunnable st.completed st.skipped layer
  let layerResults := runnable.map exec
  let completed1 := layerResults.foldl (fun m r => SMap.set m r.taskId r) st.completed
  let results1 := st.results ++ layerResults
  let results2 := layer.foldl
    (fun acc t =>
      if skipped1.contains t.id ∧ ¬ (SMap.has completed1 t.id = true) then
        acc ++ [skippedResult t.id]
      else acc)
    results1
  { completed := completed1
    skipped := skipped1
    results := results2
    executed := st.executed ++ runnable.map (fun t => t.id) }

/-- `runParallel(tasks, options)`: topologically sort (propagating its
errors before anything runs), then process the layers in order. -/
def runParallel (tasks : List TaskSpec) (exec : TaskSpec → TaskResult) :
    Except TopoError SchedState := do
  let layers ← topologicalSort tasks
  .ok (layers.foldl (processLayer exec) ⟨[], [], [], []⟩)

/-! ### Option threading between `runParallel` and `runTask`

`runTask` destructures `{ timeout, logger, signal: externalSignal, onProgress,
backendOutput, minimalEnv }`; an abort handler is installed only when a signal
was supplied. `runParallel` destructures `{ maxWorkers, timeout, logger,
backendOutput, minimalEnv }` from its own options — any `signal` a caller puts
there is never read — and invokes `runTask` with
`{ timeout, logger, backendOutput, minimalEnv }`. -/

structure RunTaskOptions where
  timeout : Int := 7200000
  signal : Option Unit := none
  backendOutput : Bool := false
  minimalEnv : Bool := false
  deriving DecidableEq, Repr

structure RunParallelOptions where
  maxWorkers : Int := 0
  timeout : Int := 7200000
  backendOutput : Bool := false
  minimalEnv : Bool := false
  signal : Option Unit := none
  deriving DecidableEq, Repr

/-- The options object `runParallel` passes to `runTask`:
`{ timeout, logger, backendOutput, minimalEnv }` — no `signal` key. -/
def runParallelTaskOptions (o : RunParallelOptions) : RunTaskOptions :=
  { timeout := o.timeout
    backendOutput := o.backendOutput
    minimalEnv := o.minimalEnv }

/-- Whether `runTask` installs an abort listener
(`if (externalSignal) { … addEventListener('abort', …) }`). -/
def runTaskAbortInstalled (o : RunTaskOptions) : Bool :=
  o.signal.isSome

/-- Effect of an abort of the external signal on a `runTask` invocation: when
a listener is installed and the signal aborts, the handler sets
`interrupted = true` and calls `terminateProcess(child)`; otherwise nothing
happens. Returns the `interrupted` flag together with the child state and the
signals sent. -/
def runTaskAbortEffect (o : RunTaskOptions) (aborted : Bool)
    (c : ChildProcess) : Bool × (ChildProcess × List String) :=
  if runTaskAbortInstalled o && aborted then (true, terminateProcess c)
  else (false, (c, []))

/-! ### Graph-analysis functions (used to state properties of the sort) -/

/-- Successors of an id in the dependency graph: the ids of the tasks that
depend on it, in task order (this is the value `adjList.get(d)` holds after
the build, for set-valued dependency lists). -/
def succsOf (tasks : List TaskSpec) (d : String) : List String :=
  (tasks.filter (fun t => d ∈ t.dependencies)).map TaskSpec.id

/-- The edge list `(dep, dependent)` in the order the graph build visits it. -/
def taskEdges (tasks : List TaskSpec) : List (String × String) :=
  tasks.flatMap (fun t => t.dependencies.map (fun d => (d, t.id)))

/-- Replay of the edge-processing effect of the graph build on the two maps
(`adjList.get(dep).push(t.id)`; `inDegree.set(t.id, get + 1)`). -/
def applyEdges :
    List (String × String) → SMap (List String) × SMap Int →
    SMap (List String) × SMap Int
  | [], st => st
  | (d, tid) :: rest, (adj, deg) =>
    applyEdges rest
      (SMap.set adj d (((SMap.get? adj d).getD []) ++ [tid]),
       SMap.set deg tid (((SMap.get? deg tid).getD 0) + 1))

/-- Number of dependencies of a task not yet processed (the quantity the
in-degree counter tracks during Kahn's algorithm). -/
def remDeps (P : List String) (t : TaskSpec) : Nat :=
  (t.dependencies.filter (fun d => decide (d ∉ P))).length

/-- Index of the first layer containing an id (total, for rank functions). -/
def layerIdxOf : List (List String) → String → Nat
  | [], _ => 0
  | layer :: rest, id => if id ∈ layer then 0 else layerIdxOf rest id + 1

/-- Layered-dependency property of the id layers relative to already-placed
ids `P`: every dependency of a task placed in layer `i` lies in `P` or in an
earlier layer. -/
def IdRespectFrom (tasks : List TaskSpec) (P : List String)
    (layers : List (List String)) : Prop :=
  ∀ i, (hi : i < layers.length) →
    ∀ id ∈ layers.get ⟨i, hi⟩, ∀ t ∈ tasks, t.id = id →
      ∀ d ∈ t.dependencies, d ∈ P ++ (layers.take i).flatten

/-- `LayersRespectDeps` relative to already-placed ids `P` (the indexed form
used while unrolling the scheduler layer by layer). -/
def RespectFrom (P : List String) (layers : List (List TaskSpec)) : Prop :=
  ∀ i, (hi : i < layers.length) →
    ∀ t ∈ layers.get ⟨i, hi⟩, ∀ d ∈ t.dependencies,
      d ∈ P ++ ((layers.take i).flatten.map TaskSpec.id)

/-- Scheduler invariant after processing the tasks `Q`: the recorded result
ids cover `Q` exactly; every processed task was either skipped (with the
synthesized result recorded and no execution) or executed (with its runner
result recorded and completed); the bookkeeping sets stay inside `Q`; and a
recorded failing result for a dependency forces its dependents skipped. -/
def SchedInv (exec : TaskSpec → TaskResult) (Q : List TaskSpec)
    (s : SchedState) : Prop :=
  (s.results.map TaskResult.taskId).Perm (Q.map TaskSpec.id) ∧
  (∀ q ∈ Q,
    (q.id ∈ s.skipped ∧ skippedResult q.id ∈ s.results ∧
      ¬ q.id ∈ s.executed ∧ ¬ q.id ∈ s.completed.map Prod.fst) ∨
    (¬ q.id ∈ s.skipped ∧ exec q ∈ s.results ∧ q.id ∈ s.executed ∧
      SMap.get? s.completed q.id = some (exec q))) ∧
  (∀ x ∈ s.skipped, x ∈ Q.map TaskSpec.id) ∧
  (∀ x ∈ s.completed.map Prod.fst, x ∈ Q.map TaskSpec.id) ∧
  (∀ x ∈ s.executed, x ∈ Q.map TaskSpec.id) ∧
  (∀ q ∈ Q, ∀ d ∈ q.dependencies, d ∈ Q.map TaskSpec.id) ∧
  (∀ q ∈ Q, ∀ d ∈ q.dependencies, ∀ r ∈ s.results,
    r.taskId = d → ¬ r.exitCode = 0 → q.id ∈ s.skipped)

/-! ### Claim-side models (used only to compare against the embedded code) -/

/-- Modelled from the claim: the exit-code priority rule of §4.3 — timeout
124, else interrupt 130, else spawn failure 127, else the child's code with
null mapped to 1. -/
def specExitCodeRule (timedOut interrupted spawnOk : Bool)
    (childCode : Option Int) : Int :=
  if timedOut then 124
  else if interrupted then 130
  else if !spawnOk then 127
  else childCode.getD 1

/-- Modelled from the claim: the stream's flavor is the classification of the
first decoded event whose classification is non-UNKNOWN. -/
def specFirstClassifiableFlavor (events : List JValue) : BackendType :=
  match events.find? (fun e => detectBackend e != BackendType.unknown) with
  | some e => detectBackend e
  | none => .unknown

/-- Modelled from the claim: once a fragment would push the total over the
cap, that fragment and every subsequent fragment are excluded. -/
def specDropAll (cap : Nat) : Nat → List String → List String
  | _, [] => []
  | size, f :: fs =>
    if size + f.length ≤ cap then f :: specDropAll cap (size + f.length) fs
    else []

/-- The per-fragment cap rule the code actually implements: a fragment is kept
exactly when appending it keeps the running total within the cap; dropped
fragments leave the total unchanged and later fragments are still considered. -/
def capKeep (cap : Nat) : Nat → List String → List String
  | _, [] => []
  | size, f :: fs =>
    if size + f.length ≤ cap then f :: capKeep cap (size + f.length) fs
    else capKeep cap size fs

/-- Total length of a list of fragments. -/
def sumLen (l : List String) : Nat :=
  (l.map String.length).sum

/-- First non-empty session id over the event trace (each event paired with
the flavor it was processed under). -/
def firstSessionId : List (JValue × BackendType) → String
  | [] => ""
  | (v, b) :: rest =>
    let s := extractSessionId v b
    if s ≠ "" then s else firstSessionId rest

/-- The message fragments a trace of events contributes: for each event, its
extracted message when non-empty. -/
def fragmentsOf (parse : String → Option JValue)
    (de : List (JValue × BackendType)) : List String :=
  de.flatMap fun p =>
    if extractMessage parse p.1 p.2 = "" then []
    else [extractMessage parse p.1 p.2]

/-- Acyclicity of the dependency graph: a rank function under which every
dependency strictly precedes its dependent (for a finite graph this is
equivalent to the absence of a dependency cycle). -/
def Acyclic (tasks : List TaskSpec) : Prop :=
  ∃ rank : String → Nat, ∀ t ∈ tasks, ∀ d ∈ t.dependencies, rank d < rank t.id

/-- Well-formed task list per the data model of §3: unique ids, set-valued
dependencies, and dependencies referencing only ids of the same DAG. -/
def WellFormedTasks (tasks : List TaskSpec) : Prop :=
  (tasks.map TaskSpec.id).Nodup ∧
  (∀ t ∈ tasks, t.dependencies.Nodup) ∧
  (∀ t ∈ tasks, ∀ d ∈ t.dependencies, d ∈ tasks.map TaskSpec.id)

instance (tasks : List TaskSpec) : Decidable (WellFormedTasks tasks) := by
  unfold WellFormedTasks; infer_instance

/-- Every task appears in exactly one layer: the concatenation of the layers
is a permutation of the task list. -/
def LayersPlaceAll (tasks : List TaskSpec) (layers : List (List TaskSpec)) : Prop :=
  (layers.flatten).Perm tasks

/-- Every dependency of a task in layer `i` is the id of a task placed in a
layer strictly before `i`. -/
def LayersRespectDeps (layers : List (List TaskSpec)) : Prop :=
  ∀ i, (hi : i < layers.length) →
    ∀ t ∈ layers.get ⟨i, hi⟩, ∀ d ∈ t.dependencies,
      d ∈ ((layers.take i).flatten.map TaskSpec.id)

/-! ### Concrete fixtures for counterexamples and witnesses -/

/-- Oracle for nested `JSON.parse` that always fails (no nested-string items
occur in the fixtures). -/
def parseNone : String → Option JValue := fun _ => none

/-- An event that classifies as UNKNOWN. -/
def eventUnknownFix : JValue := .obj [("foo", .num 1)]

/-- An event that classifies as CODEX. -/
def eventCodexFix : JValue := .obj [("thread_id", .str "t1")]

/-- Stream whose first decoded event is unclassifiable, followed by a CODEX
event. -/
def lsFlavorFix : List JLine := [.event eventUnknownFix, .event eventCodexFix]

/-- A fragment three bytes short of the 10 MiB cap. -/
def bigFragment : String := String.mk (List.replicate 10485757 'a')

/-- Claude-flavored events: a huge fragment, then one that overflows the cap,
then a small one that fits again and also carries the stream's session id. -/
def eventBigFix : JValue := .obj [("result", .str bigFragment)]

def eventDropFix : JValue := .obj [("result", .str "bbbbb")]

def eventKeepFix : JValue :=
  .obj [("result", .str "cc"), ("session_id", .str "s9")]

def lsCapFix : List JLine :=
  [.event eventBigFix, .event eventDropFix, .event eventKeepFix]

/-- Two-task chain `A ← B`. -/
def taskAFix : TaskSpec := { id := "A" }

def taskBFix : TaskSpec := { id := "B", dependencies := ["A"] }

def tasksChainFix : List TaskSpec := [taskAFix, taskBFix]

/-- Runner oracle failing task `A` and succeeding on everything else. -/
def execFailAFix : TaskSpec → TaskResult := fun t =>
  if t.id = "A" then { taskId := t.id, exitCode := 1 }
  else { taskId := t.id, exitCode := 0 }

/-- Two-task dependency cycle `X ⇄ Y`. -/
def tasksCycleFix : List TaskSpec :=
  [{ id := "X", dependencies := ["Y"] }, { id := "Y", dependencies := ["X"] }]

/-- The scheduler state `runParallel tasksChainFix execFailAFix` produces:
`A` ran and failed, `B` was skipped with the synthesized result. -/
def outFix : SchedState :=
  { completed := [("A", { taskId := "A", exitCode := 1 })]
    skipped := ["B"]
    results := [{ taskId := "A", exitCode := 1 }, skippedResult "B"]
    executed := ["A"] }

/-! ## Theorems -/

/-- C1: for every execution of `runTask`, the final exit code is a
deterministic function of `(timed_out, interrupted, spawn_ok, child_code)`
applied in priority order: 124 on timeout, else 130 on interrupt, else 127 on
spawn failure, else the child's exit code with null/unknown mapped to 1. The
embedded derivation coincides with the spec's priority rule on every input. -/
theorem runTask_exit_code_priority (timedOut interrupted spawnOk : Bool)
    (childCode : Option Int) :
    runTaskFinalExitCode timedOut interrupted spawnOk childCode =
      specExitCodeRule timedOut interrupted spawnOk childCode := by
  cases timedOut <;> cases interrupted <;> cases spawnOk <;>
    simp [runTaskFinalExitCode, specExitCodeRule, rawExitCode]

/-- C10: when the timeout option is zero or negative, no timer is armed, the
`timedOut` flag can never be set (whether or not a timer could fire), and the
124 branch of the exit-code derivation is unreachable: the final code is
decided by the interrupt flag and the raw child code alone. -/
theorem runTask_nonpositive_timeout_no_124 (timeout : Int) (timerFired : Bool)
    (interrupted spawnOk : Bool) (childCode : Option Int)
    (h : timeout ≤ 0) :
    timeoutArmed timeout = false ∧
    timedOutFlag timeout timerFired = false ∧
    runTaskFinalExitCode (timedOutFlag timeout timerFired) interrupted spawnOk
        childCode =
      (if interrupted then 130 else rawExitCode spawnOk childCode) := by
  have harm : timeoutArmed timeout = false := by
    simp [timeoutArmed]; omega
  refine ⟨harm, ?_, ?_⟩ <;>
    simp [timedOutFlag, harm, runTaskFinalExitCode]

/-- Witness for C10 at `timeout = 0` with a firing timer, no interrupt, and a
child exiting with code 5. -/
theorem runTask_nonpositive_timeout_no_124_witness :
    (0 : Int) ≤ 0 ∧
    timedOutFlag 0 true = false ∧
    runTaskFinalExitCode (timedOutFlag 0 true) false true (some 5) =
      (if false then 130 else rawExitCode true (some 5)) :=
  ⟨le_refl 0,
    (runTask_nonpositive_timeout_no_124 0 true false true (some 5) (le_refl 0)).2.1,
    (runTask_nonpositive_timeout_no_124 0 true false true (some 5) (le_refl 0)).2.2⟩

/-- C7 (code bug, evaluated at the failing input): `terminateProcess` on a
live, not-yet-signalled child sends SIGTERM, which (Node semantics) sets the
`killed` flag as soon as the signal is *sent*. At the end of the 1-second
grace period the code tests `!child.killed` — not liveness — so even though
the child is still alive, the force-kill branch does not fire and no SIGKILL
is sent, contradicting the function's own "Force kill after delay" intent. -/
theorem terminateProcess_forceKill_dead_code :
    terminateProcess ⟨true, false, true⟩ = (⟨true, true, true⟩, ["SIGTERM"]) ∧
    (⟨true, true, true⟩ : ChildProcess).alive = true ∧
    terminateForceKill ⟨true, true, true⟩ = (⟨true, true, true⟩, []) := by
  refine ⟨?_, rfl, ?_⟩ <;> rfl

/-- C8 (code bug, evaluated at the failing input): installing the signal
handlers registers one anonymous wrapper per signal, but the returned cleanup
removes the *named* `handler` closure, which was never registered, so
`removeListener` finds nothing and the per-signal listener count stays one
above its pre-install value (the repo's own `test/signal.test.mjs` asserts it
returns to the pre-install value). Evaluated on a process with no prior
listeners, POSIX platform. -/
theorem setupSignalHandlers_cleanup_leaks :
    listenerCount ⟨[]⟩ "SIGINT" = 0 ∧
    listenerCount (setupSignalHandlers false 0 ⟨[]⟩).1 "SIGINT" = 1 ∧
    listenerCount
      (signalCleanup false (setupSignalHandlers false 0 ⟨[]⟩).2
        (setupSignalHandlers false 0 ⟨[]⟩).1) "SIGINT" = 1 ∧
    listenerCount
      (signalCleanup false (setupSignalHandlers false 0 ⟨[]⟩).2
        (setupSignalHandlers false 0 ⟨[]⟩).1) "SIGTERM" = 1 ∧
    listenerCount
      (signalCleanup false (setupSignalHandlers false 0 ⟨[]⟩).2
        (setupSignalHandlers false 0 ⟨[]⟩).1) "SIGHUP" = 1 := by
  refine ⟨rfl, ?_, ?_, ?_, ?_⟩ <;> decide

/-- C9 counterexample: a DEBUG submission while `process.env.DEBUG` is unset
is dropped before reaching `#log` — nothing is enqueued and nothing is
written, refuting "an INFO or DEBUG message is enqueued" for this submission. -/
theorem logger_debug_dropped_without_env :
    Logger.debug false LoggerConfig.default LoggerState.initial "hello" "t0" =
      LoggerState.initial ∧
    (Logger.debug false LoggerConfig.default LoggerState.initial "hello" "t0").queue
      = [] ∧
    (Logger.debug false LoggerConfig.default LoggerState.initial "hello" "t0").written
      = [] :=
  ⟨rfl, rfl, rfl⟩

/-- Closed form of `Logger.flush` as a single conditional record update. -/
theorem Logger.flush_eq (cfg : LoggerConfig) (s : LoggerState) :
    Logger.flush cfg s =
      if s.queue = [] ∨ s.drainPending = true then
        { s with flushCalls := s.flushCalls + 1 }
      else
        { s with
          flushCalls := s.flushCalls + 1
          queue := []
          pendingWrites := s.pendingWrites + 1
          written := s.written ++ [String.intercalate "\n" s.queue ++ "\n"]
          drainPending := !cfg.writeOk s.written.length } := by
  by_cases h1 : s.queue = [] <;> by_cases h2 : s.drainPending <;>
    simp [Logger.flush, h1, h2]

/-- `#flush` always bumps the ghost invocation counter. -/
theorem Logger.flush_flushCalls (cfg : LoggerConfig) (s : LoggerState) :
    (Logger.flush cfg s).flushCalls = s.flushCalls + 1 := by
  rw [Logger.flush_eq]; split <;> rfl

/-- A submission with level `error` or `warn` on an open logger enqueues the
formatted entry, records it in `errorEntries` (with the batch trim), and then
flushes. -/
theorem Logger.log_errwarn_eq (cfg : LoggerConfig) (st : LoggerState)
    (level msg ts : String) (h : st.closed = false)
    (hl : level = "error" ∨ level = "warn") :
    Logger.log cfg st level msg ts =
      Logger.flush cfg
        { st with
          queue := st.queue ++ [Logger.format level msg ts]
          errorEntries :=
            if cfg.maxErrorEntries * 2 <
                (st.errorEntries ++ [Logger.format level msg ts]).length then
              (st.errorEntries ++ [Logger.format level msg ts]).drop
                ((st.errorEntries ++ [Logger.format level msg ts]).length -
                  cfg.maxErrorEntries)
            else st.errorEntries ++ [Logger.format level msg ts] } := by
  rcases hl with hl | hl <;> subst hl <;>
    · unfold Logger.log
      simp only [h, Bool.false_eq_true, if_false]
      split
      · congr 1
        split <;> rfl
      · simp_all

/-- A submission with a level other than `error`/`warn` on an open logger
enqueues the entry and flushes exactly when the queue has reached capacity. -/
theorem Logger.log_other_eq (cfg : LoggerConfig) (st : LoggerState)
    (level msg ts : String) (h : st.closed = false)
    (hl : ¬ (level = "error" ∨ level = "warn")) :
    Logger.log cfg st level msg ts =
      (if cfg.queueSize ≤ st.queue.length + 1 then
        Logger.flush cfg
          { st with queue := st.queue ++ [Logger.format level msg ts] }
      else
        { st with queue := st.queue ++ [Logger.format level msg ts] }) := by
  unfold Logger.log
  simp only [h, Bool.false_eq_true, if_false]
  rw [if_neg hl]
  simp [List.length_append]

/-- C9 (amended): for every submission before close, an ERROR or WARN message
is enqueued and triggers an immediate flush (when no drain is pending, the
flush empties the queue and writes the joined batch containing the new entry;
under backpressure the entry stays queued); an INFO message — and a DEBUG
message when the DEBUG environment variable is set — is enqueued, with a flush
triggered exactly when the queue has reached capacity; a DEBUG message without
the DEBUG environment variable is dropped unchanged. -/
theorem logger_submission_flush_policy (cfg : LoggerConfig) (st : LoggerState)
    (msg ts : String) (h : st.closed = false) :
    ((Logger.error cfg st msg ts).flushCalls = st.flushCalls + 1) ∧
    ((Logger.warn cfg st msg ts).flushCalls = st.flushCalls + 1) ∧
    (st.drainPending = false →
      (Logger.error cfg st msg ts).queue = [] ∧
      (Logger.error cfg st msg ts).written = st.written ++
        [String.intercalate "\n"
          (st.queue ++ [Logger.format "error" msg ts]) ++ "\n"]) ∧
    (st.drainPending = true →
      (Logger.error cfg st msg ts).queue =
        st.queue ++ [Logger.format "error" msg ts] ∧
      (Logger.error cfg st msg ts).written = st.written) ∧
    ((Logger.info cfg st msg ts).flushCalls =
      st.flushCalls + (if cfg.queueSize ≤ st.queue.length + 1 then 1 else 0)) ∧
    (st.queue.length + 1 < cfg.queueSize →
      (Logger.info cfg st msg ts).queue =
        st.queue ++ [Logger.format "info" msg ts] ∧
      (Logger.info cfg st msg ts).written = st.written) ∧
    (Logger.debug true cfg st msg ts = Logger.log cfg st "debug" msg ts) ∧
    (Logger.debug false cfg st msg ts = st) := by
  have herr := Logger.log_errwarn_eq cfg st "error" msg ts h (Or.inl rfl)
  have hwarn := Logger.log_errwarn_eq cfg st "warn" msg ts h (Or.inr rfl)
  have hinfo := Logger.log_other_eq cfg st "info" msg ts h (by simp)
  have hq : ¬ (st.queue ++ [Logger.format "error" msg ts] = []) := by simp
  refine ⟨?_, ?_, ?_, ?_, ?_, ?_, rfl, rfl⟩
  · show (Logger.log cfg st "error" msg ts).flushCalls = _
    rw [herr, Logger.flush_flushCalls]
  · show (Logger.log cfg st "warn" msg ts).flushCalls = _
    rw [hwarn, Logger.flush_flushCalls]
  · intro hd
    show (Logger.log cfg st "error" msg ts).queue = [] ∧
      (Logger.log cfg st "error" msg ts).written = _
    rw [herr, Logger.flush_eq]
    rw [if_neg (by simp [hq, hd])]
    exact ⟨rfl, rfl⟩
  · intro hd
    show (Logger.log cfg st "error" msg ts).queue = _ ∧
      (Logger.log cfg st "error" msg ts).written = _
    rw [herr, Logger.flush_eq]
    rw [if_pos (by simp [hd])]
    exact ⟨rfl, rfl⟩
  · show (Logger.log cfg st "info" msg ts).flushCalls = _
    rw [hinfo]
    by_cases hcap : cfg.queueSize ≤ st.queue.length + 1
    · rw [if_pos hcap, if_pos hcap, Logger.flush_flushCalls]
    · rw [if_neg hcap, if_neg hcap]
      simp
  · intro hcap
    show (Logger.log cfg st "info" msg ts).queue = _ ∧
      (Logger.log cfg st "info" msg ts).written = _
    rw [hinfo, if_neg (by omega)]
    exact ⟨rfl, rfl⟩

/-- Witness for C9 (amended) on a fresh logger with the default configuration:
an ERROR submission flushes immediately and writes its entry; an INFO
submission is enqueued without writing. -/
theorem logger_submission_flush_policy_witness :
    LoggerState.initial.closed = false ∧
    (Logger.error LoggerConfig.default LoggerState.initial "boom" "t1").flushCalls
      = LoggerState.initial.flushCalls + 1 ∧
    (Logger.info LoggerConfig.default LoggerState.initial "hi" "t1").queue =
      LoggerState.initial.queue ++ [Logger.format "info" "hi" "t1"] :=
  ⟨rfl,
    (logger_submission_flush_policy LoggerConfig.default LoggerState.initial
      "boom" "t1" rfl).1,
    ((logger_submission_flush_policy LoggerConfig.default LoggerState.initial
      "hi" "t1" rfl).2.2.2.2.2.1 (by decide)).1⟩

/-! ### Parser lemmas -/

/-- A line that fails to decode is skipped. -/
theorem parseLine_raw (parse : String → Option JValue) (st : ParseState)
    (s : String) : parseLine parse st (.raw s) = st := rfl

/-- A decoded non-container value was filtered out before decoding. -/
theorem parseLine_skip (parse : String → Option JValue) (st : ParseState)
    (v : JValue) (hv : v.isContainer = false) :
    parseLine parse st (.event v) = st := by
  simp [parseLine, hv]

/-- Processing an event while a flavor is cached keeps the cache and the
detected flavor, and traces the event under the cached flavor. -/
theorem parseLine_event_cached (parse : String → Option JValue)
    (st : ParseState) (v : JValue) (c : BackendType)
    (hc : st.cachedBackend = some c) (hv : v.isContainer = true) :
    (parseLine parse st (.event v)).cachedBackend = some c ∧
    (parseLine parse st (.event v)).detectedBackend = c ∧
    (parseLine parse st (.event v)).eventTrace = st.eventTrace ++ [(v, c)] := by
  unfold parseLine
  simp only [hv, Bool.not_true, Bool.false_eq_true, if_false, hc]
  refine ⟨?_, ?_, ?_⟩ <;> (repeat' split) <;>
    first | rfl | simp_all [stepFlavor]

/-- Processing the first decoded event from the initial state caches its
classification — whatever it is, UNKNOWN included. -/
theorem parseLine_event_fresh (parse : String → Option JValue) (v : JValue)
    (hv : v.isContainer = true) :
    (parseLine parse ParseState.initial (.event v)).cachedBackend =
      some (detectBackend v) ∧
    (parseLine parse ParseState.initial (.event v)).detectedBackend =
      detectBackend v ∧
    (parseLine parse ParseState.initial (.event v)).eventTrace =
      [(v, detectBackend v)] := by
  unfold parseLine ParseState.initial
  simp only [hv, Bool.not_true, Bool.false_eq_true, if_false]
  refine ⟨?_, ?_, ?_⟩ <;> (repeat' split) <;>
    first | rfl | simp_all [stepFlavor]

/-- Once a flavor is cached, folding any further lines never changes the
cache or the detected flavor, and every further traced event carries the
cached flavor. -/
theorem foldl_parseLine_cached (parse : String → Option JValue)
    (ls : List JLine) :
    ∀ (st : ParseState) (c : BackendType),
      st.cachedBackend = some c → st.detectedBackend = c →
      (∀ p ∈ st.eventTrace, p.2 = c) →
      (ls.foldl (parseLine parse) st).cachedBackend = some c ∧
      (ls.foldl (parseLine parse) st).detectedBackend = c ∧
      ∀ p ∈ (ls.foldl (parseLine parse) st).eventTrace, p.2 = c := by
  induction ls with
  | nil => intro st c hc hd ht; exact ⟨hc, hd, ht⟩
  | cons l rest ih =>
    intro st c hc hd ht
    cases l with
    | raw s =>
      rw [List.foldl_cons, parseLine_raw]
      exact ih st c hc hd ht
    | event v =>
      rw [List.foldl_cons]
      by_cases hv : v.isContainer = true
      · obtain ⟨h1, h2, h3⟩ := parseLine_event_cached parse st v c hc hv
        refine ih _ c h1 h2 ?_
        rw [h3]
        intro p hp
        rcases List.mem_append.mp hp with hp | hp
        · exact ht p hp
        · simp at hp; subst hp; rfl
      · rw [parseLine_skip parse st v (by simpa using hv)]
        exact ih st c hc hd ht

/-- The parser state after a stream whose first decoded event is `e`: the
flavor cached and detected is `detectBackend e`, and every `onEvent` call saw
that flavor. -/
theorem parseJSONStreamState_first_event (parse : String → Option JValue)
    (ls : List JLine) :
    ∀ (e : JValue) (es : List JValue), decodedEvents ls = e :: es →
      (parseJSONStreamState parse ls).cachedBackend = some (detectBackend e) ∧
      (parseJSONStreamState parse ls).detectedBackend = detectBackend e ∧
      ∀ p ∈ (parseJSONStreamState parse ls).eventTrace,
        p.2 = detectBackend e := by
  induction ls with
  | nil => intro e es h; simp [decodedEvents] at h
  | cons l rest ih =>
    intro e es h
    cases l with
    | raw s =>
      have hdec : decodedEvents (JLine.raw s :: rest) = decodedEvents rest := by
        simp [decodedEvents]
      rw [hdec] at h
      unfold parseJSONStreamState
      rw [List.foldl_cons, parseLine_raw]
      exact ih e es h
    | event v =>
      by_cases hv : v.isContainer = true
      · have hdec : decodedEvents (JLine.event v :: rest) =
            v :: decodedEvents rest := by
          simp [decodedEvents, hv]
        rw [hdec] at h
        obtain ⟨he, _⟩ := List.cons.injEq .. ▸ h
        have hve : v = e := by injection h
        subst hve
        unfold parseJSONStreamState
        rw [List.foldl_cons]
        obtain ⟨h1, h2, h3⟩ := parseLine_event_fresh parse v hv
        have := foldl_parseLine_cached parse rest _ (detectBackend v) h1 h2
          (by rw [h3]; intro p hp; simp at hp; subst hp; rfl)
        exact this
      · have hvf : v.isContainer = false := by simpa using hv
        have hdec : decodedEvents (JLine.event v :: rest) =
            decodedEvents rest := by
          simp [decodedEvents, hvf]
        rw [hdec] at h
        unfold parseJSONStreamState
        rw [List.foldl_cons, parseLine_skip parse _ v hvf]
        exact ih e es h

/-- C2 counterexample: on a stream whose first decoded event classifies as
UNKNOWN and whose second classifies as CODEX, the claim predicts the cached
flavor CODEX (first non-UNKNOWN classification), but the code caches the
flavor of the first decoded event unconditionally and reports UNKNOWN. -/
theorem parseJSONStream_unknown_first_latches :
    detectBackend eventUnknownFix = .unknown ∧
    detectBackend eventCodexFix = .codex ∧
    specFirstClassifiableFlavor (decodedEvents lsFlavorFix) = .codex ∧
    (parseJSONStream parseNone lsFlavorFix).backendType = .unknown :=
  ⟨rfl, rfl, rfl, rfl⟩

/-- C2 (amended): the parser caches the backend flavor on the first
successfully decoded event regardless of its classification — an UNKNOWN
classification fixes the flavor to UNKNOWN just as a recognized one would —
and once cached the flavor is used for every subsequent event (every
`onEvent` call carries it) and never changes for the remainder of the
stream. -/
theorem parseJSONStream_flavor_latched (parse : String → Option JValue)
    (ls : List JLine) (e : JValue) (es : List JValue)
    (h : decodedEvents ls = e :: es) :
    (parseJSONStream parse ls).backendType = detectBackend e ∧
    ∀ p ∈ (parseJSONStreamState parse ls).eventTrace,
      p.2 = detectBackend e := by
  obtain ⟨_, h2, h3⟩ := parseJSONStreamState_first_event parse ls e es h
  exact ⟨h2, h3⟩

/-- Witness for C2 (amended) on the two-event fixture stream. -/
theorem parseJSONStream_flavor_latched_witness :
    decodedEvents lsFlavorFix = eventUnknownFix :: [eventCodexFix] ∧
    (parseJSONStream parseNone lsFlavorFix).backendType =
      detectBackend eventUnknownFix :=
  ⟨rfl,
    (parseJSONStream_flavor_latched parseNone lsFlavorFix eventUnknownFix
      [eventCodexFix] rfl).1⟩

/-- Effect of one decoded event on the message/session machinery, relative to
the per-fragment cap rule `capKeep`. -/
theorem parseLine_event_step (parse : String → Option JValue)
    (st : ParseState) (v : JValue) (hv : v.isContainer = true) :
    (parseLine parse st (.event v)).eventTrace =
      st.eventTrace ++ [(v, stepFlavor st v)] ∧
    (parseLine parse st (.event v)).messageTrace = st.messageTrace ++
      (if extractMessage parse v (stepFlavor st v) = "" then []
       else [extractMessage parse v (stepFlavor st v)]) ∧
    (parseLine parse st (.event v)).messages = st.messages ++
      capKeep MAX_MESSAGE_SIZE st.messagesSize
        (if extractMessage parse v (stepFlavor st v) = "" then []
         else [extractMessage parse v (stepFlavor st v)]) ∧
    (parseLine parse st (.event v)).messagesSize = st.messagesSize +
      sumLen (capKeep MAX_MESSAGE_SIZE st.messagesSize
        (if extractMessage parse v (stepFlavor st v) = "" then []
         else [extractMessage parse v (stepFlavor st v)])) ∧
    (parseLine parse st (.event v)).sessionId =
      (if st.sessionId = "" then firstSessionId [(v, stepFlavor st v)]
       else st.sessionId) := by
  unfold parseLine
  simp only [hv, Bool.not_true, Bool.false_eq_true, if_false]
  by_cases hm : extractMessage parse v (stepFlavor st v) = ""
  · by_cases hs : st.sessionId = ""
    · refine ⟨?_, ?_, ?_, ?_, ?_⟩ <;>
        simp [hm, hs, capKeep, sumLen, firstSessionId] <;> split <;> simp_all
    · refine ⟨?_, ?_, ?_, ?_, ?_⟩ <;>
        simp [hm, hs, capKeep, sumLen, firstSessionId]
  · by_cases hcap :
        st.messagesSize +
          (extractMessage parse v (stepFlavor st v)).length ≤ MAX_MESSAGE_SIZE
    · by_cases hs : st.sessionId = ""
      · refine ⟨?_, ?_, ?_, ?_, ?_⟩ <;>
          simp [hm, hcap, hs, capKeep, sumLen, firstSessionId] <;>
            split <;> simp_all
      · refine ⟨?_, ?_, ?_, ?_, ?_⟩ <;>
          simp [hm, hcap, hs, capKeep, sumLen, firstSessionId]
    · by_cases hs : st.sessionId = ""
      · refine ⟨?_, ?_, ?_, ?_, ?_⟩ <;>
          simp [hm, hcap, hs, capKeep, sumLen, firstSessionId] <;>
            split <;> simp_all
      · refine ⟨?_, ?_, ?_, ?_, ?_⟩ <;>
          simp [hm, hcap, hs, capKeep, sumLen, firstSessionId]

/-- Unfolding equation for `capKeep` on a cons. -/
theorem capKeep_cons (cap size : Nat) (f : String) (fs : List String) :
    capKeep cap size (f :: fs) =
      if size + f.length ≤ cap then f :: capKeep cap (size + f.length) fs
      else capKeep cap size fs := rfl

/-- `sumLen` of a cons. -/
theorem sumLen_cons (f : String) (l : List String) :
    sumLen (f :: l) = f.length + sumLen l := by
  simp [sumLen]

/-- `sumLen` of an append. -/
theorem sumLen_append (a b : List String) :
    sumLen (a ++ b) = sumLen a + sumLen b := by
  simp [sumLen]

/-- `capKeep` distributes over appending fragment lists: the second batch
continues from the size accumulated by the first. -/
theorem capKeep_append (cap : Nat) :
    ∀ (xs ys : List String) (size : Nat),
      capKeep cap size (xs ++ ys) =
        capKeep cap size xs ++
          capKeep cap (size + sumLen (capKeep cap size xs)) ys := by
  intro xs
  induction xs with
  | nil => intro ys size; simp [capKeep, sumLen]
  | cons f fs ih =>
    intro ys size
    rw [List.cons_append, capKeep_cons, capKeep_cons]
    by_cases h : size + f.length ≤ cap
    · rw [if_pos h, if_pos h, ih, sumLen_cons, List.cons_append,
        ← Nat.add_assoc]
    · rw [if_neg h, if_neg h, ih]

/-- `firstSessionId` over appended traces. -/
theorem firstSessionId_append (xs ys : List (JValue × BackendType)) :
    firstSessionId (xs ++ ys) =
      (if firstSessionId xs = "" then firstSessionId ys
       else firstSessionId xs) := by
  induction xs with
  | nil => simp [firstSessionId]
  | cons p rest ih =>
    obtain ⟨v, b⟩ := p
    by_cases h : extractSessionId v b = ""
    · simp [firstSessionId, h, ih]
    · simp [firstSessionId, h]

/-- Full characterization of the parser fold: the event trace extends by
exactly the decoded events; the message trace extends by the extracted
fragments; the stored messages are the per-fragment-cap selection of the new
fragments; the size is the total of what was kept; and the session id is the
first non-empty id over the new trace when none was present. -/
theorem foldl_parseLine_spec (parse : String → Option JValue) :
    ∀ (ls : List JLine) (st : ParseState),
      ∃ de : List (JValue × BackendType), ∃ dm : List String,
        (ls.foldl (parseLine parse) st).eventTrace = st.eventTrace ++ de ∧
        de.map Prod.fst = decodedEvents ls ∧
        dm = fragmentsOf parse de ∧
        (ls.foldl (parseLine parse) st).messageTrace =
          st.messageTrace ++ dm ∧
        (ls.foldl (parseLine parse) st).messages =
          st.messages ++ capKeep MAX_MESSAGE_SIZE st.messagesSize dm ∧
        (ls.foldl (parseLine parse) st).messagesSize =
          st.messagesSize +
            sumLen (capKeep MAX_MESSAGE_SIZE st.messagesSize dm) ∧
        (ls.foldl (parseLine parse) st).sessionId =
          (if st.sessionId = "" then firstSessionId de else st.sessionId) := by
  intro ls
  induction ls with
  | nil =>
    intro st
    refine ⟨[], [], by simp, by simp [decodedEvents], by simp [fragmentsOf],
      by simp, by simp [capKeep], by simp [capKeep, sumLen], ?_⟩
    split <;> simp_all [firstSessionId]
  | cons l rest ih =>
    intro st
    cases l with
    | raw s =>
      obtain ⟨de, dm, h1, h2, h7, h3, h4, h5, h6⟩ := ih st
      exact ⟨de, dm, by simpa [parseLine_raw] using h1,
        by simpa [decodedEvents] using h2,
        h7,
        by simpa [parseLine_raw] using h3,
        by simpa [parseLine_raw] using h4,
        by simpa [parseLine_raw] using h5,
        by simpa [parseLine_raw] using h6⟩
    | event v =>
      by_cases hv : v.isContainer = true
      · obtain ⟨he, hmt, hmsg, hsize, hsid⟩ :=
          parseLine_event_step parse st v hv
        set st1 := parseLine parse st (.event v) with hst1
        obtain ⟨de, dm, h1, h2, h7, h3, h4, h5, h6⟩ := ih st1
        set m := extractMessage parse v (stepFlavor st v) with hm
        set dm0 : List String := (if m = "" then [] else [m]) with hdm0
        refine ⟨(v, stepFlavor st v) :: de, dm0 ++ dm, ?_, ?_, ?_, ?_, ?_, ?_,
          ?_⟩
        · rw [List.foldl_cons, ← hst1, h1, he]; simp
        · simp only [List.map_cons, h2, decodedEvents, List.filterMap_cons, hv,
            if_pos]
        · simp only [fragmentsOf, List.flatMap_cons]
          rw [hdm0, h7, hm]
          simp [fragmentsOf]
        · rw [List.foldl_cons, ← hst1, h3, hmt]; simp
        · rw [List.foldl_cons, ← hst1, h4, hmsg, hsize, capKeep_append,
            List.append_assoc]
        · rw [List.foldl_cons, ← hst1, h5, hsize, capKeep_append,
            sumLen_append]
          omega
        · rw [List.foldl_cons, ← hst1, h6, hsid]
          by_cases hs : st.sessionId = ""
          · by_cases hesid : extractSessionId v (stepFlavor st v) = "" <;>
              simp [hs, firstSessionId, hesid]
          · simp [hs]
      · have hvf : v.isContainer = false := by simpa using hv
        obtain ⟨de, dm, h1, h2, h7, h3, h4, h5, h6⟩ := ih st
        refine ⟨de, dm, ?_, ?_, ?_, ?_, ?_, ?_, ?_⟩ <;>
          simp_all [parseLine_skip parse st v hvf, decodedEvents]

/-- The running fragment total never exceeds the cap. -/
theorem sumLen_capKeep_le (cap : Nat) :
    ∀ (l : List String) (size : Nat), size ≤ cap →
      size + sumLen (capKeep cap size l) ≤ cap := by
  intro l
  induction l with
  | nil => intro size h; simpa [capKeep, sumLen] using h
  | cons f fs ih =>
    intro size h
    by_cases hf : size + f.length ≤ cap
    · have := ih (size + f.length) hf
      simp only [capKeep, hf, if_pos, sumLen, List.map_cons, List.sum_cons]
      unfold sumLen at this
      omega
    · simpa [capKeep, hf] using ih size h

/-- C3 (amended): the parser's 10 MiB cap is enforced per fragment: a
fragment is excluded exactly when appending it would push the running total
of kept fragments over the cap — later, smaller fragments may still be
included — the kept total never exceeds 10 MiB, and event processing
continues to the end of the stream regardless of drops: every decoded event
is still delivered to the callback and the session id is the first non-empty
id over the whole stream. -/
theorem parseJSONStream_cap_per_fragment (parse : String → Option JValue)
    (ls : List JLine) :
    (parseJSONStream parse ls).message =
      String.join (capKeep MAX_MESSAGE_SIZE 0
        (parseJSONStreamState parse ls).messageTrace) ∧
    (parseJSONStreamState parse ls).messagesSize ≤ MAX_MESSAGE_SIZE ∧
    (parseJSONStreamState parse ls).eventTrace.map Prod.fst =
      decodedEvents ls ∧
    (parseJSONStreamState parse ls).messageTrace =
      fragmentsOf parse (parseJSONStreamState parse ls).eventTrace ∧
    (parseJSONStream parse ls).sessionId =
      firstSessionId (parseJSONStreamState parse ls).eventTrace := by
  obtain ⟨de, dm, h1, h2, h7, h3, h4, h5, h6⟩ :=
    foldl_parseLine_spec parse ls ParseState.initial
  have hde : (parseJSONStreamState parse ls).eventTrace = de := by
    simpa [ParseState.initial, parseJSONStreamState] using h1
  have hdm : (parseJSONStreamState parse ls).messageTrace = dm := by
    simpa [ParseState.initial, parseJSONStreamState] using h3
  refine ⟨?_, ?_, ?_, ?_, ?_⟩
  · show String.join (parseJSONStreamState parse ls).messages = _
    rw [hdm]
    have : (parseJSONStreamState parse ls).messages =
        capKeep MAX_MESSAGE_SIZE 0 dm := by
      simpa [ParseState.initial, parseJSONStreamState] using h4
    rw [this]
  · have : (parseJSONStreamState parse ls).messagesSize =
        0 + sumLen (capKeep MAX_MESSAGE_SIZE 0 dm) := by
      simpa [ParseState.initial, parseJSONStreamState] using h5
    rw [this]
    exact sumLen_capKeep_le MAX_MESSAGE_SIZE dm 0 (Nat.zero_le _)
  · rw [hde]; exact h2
  · rw [hdm, hde]; exact h7
  · show (parseJSONStreamState parse ls).sessionId = _
    rw [hde]
    simpa [ParseState.initial, parseJSONStreamState] using h6

/-- Length of the near-cap fixture fragment. -/
theorem bigFragment_length : bigFragment.length = 10485757 := by
  have h : bigFragment.length = (List.replicate 10485757 'a').length := rfl
  rw [h, List.length_replicate]

/-- The near-cap fragment is non-empty. -/
theorem bigFragment_ne_empty : bigFragment ≠ "" := by
  intro h
  have : bigFragment.length = 0 := by rw [h]; rfl
  rw [bigFragment_length] at this
  exact absurd this (by norm_num)

/-- Projections of `parseJSONStream` in terms of the final parser state. -/
theorem parseJSONStream_message_eq (parse : String → Option JValue)
    (ls : List JLine) :
    (parseJSONStream parse ls).message =
      String.join ((parseJSONStreamState parse ls).messages) := rfl

/-- Session-id projection of `parseJSONStream`. -/
theorem parseJSONStream_sessionId_eq (parse : String → Option JValue)
    (ls : List JLine) :
    (parseJSONStream parse ls).sessionId =
      (parseJSONStreamState parse ls).sessionId := rfl

/-- `capKeep` on the empty fragment list. -/
theorem capKeep_nil (cap size : Nat) : capKeep cap size [] = [] := rfl

/-- Unfolding equation for `specDropAll` on a cons. -/
theorem specDropAll_cons (cap size : Nat) (f : String) (fs : List String) :
    specDropAll cap size (f :: fs) =
      if size + f.length ≤ cap then f :: specDropAll cap (size + f.length) fs
      else [] := rfl

/-- A pair list with known first components and a constant second component. -/
theorem pairs_of_map_fst (c : BackendType) :
    ∀ (de : List (JValue × BackendType)) (vs : List JValue),
      de.map Prod.fst = vs → (∀ p ∈ de, p.2 = c) →
      de = vs.map (fun v => (v, c)) := by
  intro de
  induction de with
  | nil =>
    intro vs h1 _
    rw [← h1]
    rfl
  | cons p rest ih =>
    intro vs h1 h2
    obtain ⟨v, b⟩ := p
    rw [← h1]
    simp only [List.map_cons]
    have hb : b = c := h2 (v, b) (List.mem_cons_self _ _)
    have hr := ih (rest.map Prod.fst) rfl
      (fun p hp => h2 p (List.mem_cons_of_mem _ hp))
    rw [hb, ← hr]

/-- C3 counterexample: on the fixture stream the second fragment ("bbbbb")
overflows the cap and is dropped, but the third fragment ("cc") still fits
and is appended — while the claim says every fragment after the first
overflow is excluded (a drop-all model keeps only the first fragment).
Session-id extraction also continues past the overflow. -/
theorem parseJSONStream_cap_drops_not_prefix_closed :
    (parseJSONStream parseNone lsCapFix).message = bigFragment ++ "cc" ∧
    (parseJSONStreamState parseNone lsCapFix).messageTrace =
      [bigFragment, "bbbbb", "cc"] ∧
    specDropAll MAX_MESSAGE_SIZE 0
      (parseJSONStreamState parseNone lsCapFix).messageTrace =
      [bigFragment] ∧
    (parseJSONStream parseNone lsCapFix).message ≠
      String.join (specDropAll MAX_MESSAGE_SIZE 0
        (parseJSONStreamState parseNone lsCapFix).messageTrace) ∧
    (parseJSONStream parseNone lsCapFix).sessionId = "s9" := by
  have hdec : decodedEvents lsCapFix =
      [eventBigFix, eventDropFix, eventKeepFix] := rfl
  have hdb : detectBackend eventBigFix = .claude := rfl
  have hne := bigFragment_ne_empty
  have hb5 : ("bbbbb" : String).length = 5 := rfl
  have hb2 : ("cc" : String).length = 2 := rfl
  have hm1 : extractMessage parseNone eventBigFix .claude = bigFragment := rfl
  have hm2 : extractMessage parseNone eventDropFix .claude = "bbbbb" := rfl
  have hm3 : extractMessage parseNone eventKeepFix .claude = "cc" := rfl
  have hs1 : extractSessionId eventBigFix .claude = "" := rfl
  have hs2 : extractSessionId eventDropFix .claude = "" := rfl
  have hs3 : extractSessionId eventKeepFix .claude = "s9" := rfl
  obtain ⟨hcb, hdetb, htr⟩ := parseJSONStreamState_first_event parseNone
    lsCapFix eventBigFix [eventDropFix, eventKeepFix] hdec
  obtain ⟨de, dm, h1, h2, h7, h3, h4, h5, h6⟩ :=
    foldl_parseLine_spec parseNone lsCapFix ParseState.initial
  have hde : (parseJSONStreamState parseNone lsCapFix).eventTrace = de := by
    simpa [ParseState.initial, parseJSONStreamState] using h1
  rw [hde, hdb] at htr
  have hdeeq : de =
      [(eventBigFix, BackendType.claude), (eventDropFix, BackendType.claude),
        (eventKeepFix, BackendType.claude)] := by
    have h2x : de.map Prod.fst =
        [eventBigFix, eventDropFix, eventKeepFix] := by rw [h2, hdec]
    have := pairs_of_map_fst BackendType.claude de
      [eventBigFix, eventDropFix, eventKeepFix] h2x htr
    simpa using this
  have hdm : dm = [bigFragment, "bbbbb", "cc"] := by
    rw [h7, hdeeq]
    simp [fragmentsOf, hm1, hm2, hm3, hne]
  have hk1 : 0 + bigFragment.length ≤ MAX_MESSAGE_SIZE := by
    rw [bigFragment_length]; norm_num [MAX_MESSAGE_SIZE]
  have hk2 : ¬ (0 + bigFragment.length + ("bbbbb" : String).length ≤
      MAX_MESSAGE_SIZE) := by
    rw [bigFragment_length, hb5]; norm_num [MAX_MESSAGE_SIZE]
  have hk3 : 0 + bigFragment.length + ("cc" : String).length ≤
      MAX_MESSAGE_SIZE := by
    rw [bigFragment_length, hb2]; norm_num [MAX_MESSAGE_SIZE]
  have hcap : capKeep MAX_MESSAGE_SIZE 0 dm = [bigFragment, "cc"] := by
    rw [hdm, capKeep_cons, if_pos hk1, capKeep_cons, if_neg hk2,
      capKeep_cons, if_pos hk3, capKeep_nil]
  have hmsgs : (parseJSONStreamState parseNone lsCapFix).messages =
      [bigFragment, "cc"] := by
    have h4x : (parseJSONStreamState parseNone lsCapFix).messages =
        capKeep MAX_MESSAGE_SIZE 0 dm := by
      simpa [parseJSONStreamState, ParseState.initial] using h4
    rw [h4x, hcap]
  have hmessage : (parseJSONStream parseNone lsCapFix).message =
      bigFragment ++ "cc" := by
    rw [parseJSONStream_message_eq, hmsgs]
    rfl
  have hmtrace : (parseJSONStreamState parseNone lsCapFix).messageTrace =
      [bigFragment, "bbbbb", "cc"] := by
    have h3x : (parseJSONStreamState parseNone lsCapFix).messageTrace = dm := by
      simpa [parseJSONStreamState, ParseState.initial] using h3
    rw [h3x, hdm]
  have hdrop : specDropAll MAX_MESSAGE_SIZE 0
      [bigFragment, "bbbbb", "cc"] = [bigFragment] := by
    rw [specDropAll_cons, if_pos hk1, specDropAll_cons, if_neg hk2]
  have hsidfin : (parseJSONStream parseNone lsCapFix).sessionId = "s9" := by
    have h6x : (parseJSONStreamState parseNone lsCapFix).sessionId =
        firstSessionId de := by
      simpa [parseJSONStreamState, ParseState.initial] using h6
    rw [parseJSONStream_sessionId_eq, h6x, hdeeq]
    simp [firstSessionId, hs1, hs2, hs3]
  refine ⟨hmessage, hmtrace, by rw [hmtrace]; exact hdrop, ?_, hsidfin⟩
  rw [hmessage, hmtrace, hdrop]
  have hj1 : String.join [bigFragment] = bigFragment := rfl
  rw [hj1]
  intro h
  have hlen := congrArg String.length h
  rw [String.length_append, hb2] at hlen
  omega

/-- C5 counterexample: a caller that holds an abort signal and passes it in
the `runParallel` options finds that the options `runParallel` builds for
`runTask` contain no signal, so no abort handler is installed for the task
and aborting has no effect on the in-flight child — the abort does not
propagate. -/
theorem runParallel_abort_not_propagated :
    (runParallelTaskOptions { signal := some () }).signal = none ∧
    runTaskAbortInstalled (runParallelTaskOptions { signal := some () }) =
      false ∧
    runTaskAbortEffect (runParallelTaskOptions { signal := some () }) true
      ⟨true, false, true⟩ = (false, (⟨true, false, true⟩, [])) :=
  ⟨rfl, rfl, rfl⟩

/-- C5 (amended): `runParallel` provides no abort propagation — the options it
passes to `runTask` contain no signal, so no abort handler is installed and an
external abort never reaches tasks run through the scheduler; abort handling
exists only when `runTask` is invoked directly with a signal, in which case an
abort marks the task interrupted and applies the termination protocol to its
child. -/
theorem runParallel_no_abort_path (o : RunParallelOptions)
    (o2 : RunTaskOptions) (c : ChildProcess) (aborted : Bool)
    (h : o2.signal.isSome = true) :
    (runParallelTaskOptions o).signal = none ∧
    runTaskAbortInstalled (runParallelTaskOptions o) = false ∧
    runTaskAbortEffect (runParallelTaskOptions o) aborted c =
      (false, (c, [])) ∧
    runTaskAbortEffect o2 true c = (true, terminateProcess c) := by
  refine ⟨rfl, rfl, ?_, ?_⟩ <;>
    simp [runTaskAbortEffect, runTaskAbortInstalled, runParallelTaskOptions, h]

/-- Witness for C5 (amended): a signal-bearing `runParallel` caller and a
direct `runTask` invocation with a signal, on a live child. -/
theorem runParallel_no_abort_path_witness :
    (({ signal := some () } : RunTaskOptions)).signal.isSome = true ∧
    runTaskAbortEffect
      (runParallelTaskOptions { signal := some () }) true
      ⟨true, false, true⟩ = (false, (⟨true, false, true⟩, [])) ∧
    runTaskAbortEffect ({ signal := some () } : RunTaskOptions) true
      ⟨true, false, true⟩ =
      (true, terminateProcess ⟨true, false, true⟩) :=
  ⟨rfl,
    (runParallel_no_abort_path { signal := some () } { signal := some () }
      ⟨true, false, true⟩ true rfl).2.2.1,
    (runParallel_no_abort_path { signal := some () } { signal := some () }
      ⟨true, false, true⟩ true rfl).2.2.2⟩

/-! ### Map lemmas for the DAG scheduler -/

theorem SMap.get?_set_self (m : SMap α) (k : String) (v : α) :
    SMap.get? (SMap.set m k v) k = some v := by
  induction m with
  | nil => simp [SMap.set, SMap.get?]
  | cons e rest ih =>
    by_cases h : e.1 = k
    · simp [SMap.set, SMap.get?, h]
    · simp only [SMap.set, if_neg h]
      simpa [SMap.get?, List.find?, h] using ih

theorem SMap.get?_set_ne (m : SMap α) (k k' : String) (v : α)
    (h : k' ≠ k) :
    SMap.get? (SMap.set m k v) k' = SMap.get? m k' := by
  induction m with
  | nil => simp [SMap.set, SMap.get?, List.find?, Ne.symm h]
  | cons e rest ih =>
    by_cases he : e.1 = k
    · subst he
      simp [SMap.set, SMap.get?, List.find?, Ne.symm h]
    · simp only [SMap.set, if_neg he]
      by_cases he' : e.1 = k'
      · simp [SMap.get?, List.find?, he']
      · simpa [SMap.get?, List.find?, he'] using ih

theorem SMap.keys_set_of_mem (m : SMap α) (k : String) (v : α)
    (h : k ∈ m.map Prod.fst) :
    (SMap.set m k v).map Prod.fst = m.map Prod.fst := by
  induction m with
  | nil => simp at h
  | cons e rest ih =>
    by_cases he : e.1 = k
    · simp [SMap.set, he]
    · simp only [List.map_cons, List.mem_cons] at h
      rcases h with h | h
      · exact absurd h.symm he
      · simp [SMap.set, if_neg he, ih h]

theorem SMap.set_eq_append (m : SMap α) (k : String) (v : α)
    (h : ¬ k ∈ m.map Prod.fst) :
    SMap.set m k v = m ++ [(k, v)] := by
  induction m with
  | nil => simp [SMap.set]
  | cons e rest ih =>
    simp only [List.map_cons, List.mem_cons] at h
    push_neg at h
    have he : ¬ e.1 = k := fun hh => h.1 hh.symm
    simp [SMap.set, he, ih h.2]

theorem SMap.get?_eq_none (m : SMap α) (k : String)
    (h : ¬ k ∈ m.map Prod.fst) :
    SMap.get? m k = none := by
  induction m with
  | nil => simp [SMap.get?]
  | cons e rest ih =>
    simp only [List.map_cons, List.mem_cons] at h
    push_neg at h
    have he : ¬ e.1 = k := fun hh => h.1 hh.symm
    simpa [SMap.get?, List.find?, he] using ih h.2

theorem SMap.get?_mem_of_some (m : SMap α) (k : String) (v : α)
    (h : SMap.get? m k = some v) : k ∈ m.map Prod.fst := by
  by_contra hk
  rw [SMap.get?_eq_none m k hk] at h
  exact Option.noConfusion h

/-- Looking a key up in a task-shaped association list finds the first task
with that id. -/
theorem SMap.get?_taskShaped (f : TaskSpec → α) (tasks : List TaskSpec)
    (k : String) :
    SMap.get? (tasks.map (fun t => (t.id, f t))) k =
      (tasks.find? (fun t => t.id = k)).map f := by
  induction tasks with
  | nil => simp [SMap.get?]
  | cons t rest ih =>
    by_cases h : t.id = k
    · simp [SMap.get?, List.find?, h]
    · simpa [SMap.get?, List.find?, h] using ih

/-- With unique ids, `find?` by a member's id returns that member. -/
theorem find?_id_of_nodup (tasks : List TaskSpec)
    (hnd : (tasks.map TaskSpec.id).Nodup) (t : TaskSpec) (ht : t ∈ tasks) :
    tasks.find? (fun t' => t'.id = t.id) = some t := by
  induction tasks with
  | nil => simp at ht
  | cons t0 rest ih =>
    simp only [List.map_cons, List.nodup_cons] at hnd
    rcases List.mem_cons.mp ht with rfl | ht'
    · simp [List.find?]
    · have hne : ¬ (t0.id = t.id) := by
        intro hh
        apply hnd.1
        rw [hh]
        exact List.mem_map_of_mem TaskSpec.id ht'
      simpa [List.find?, hne] using ih hnd.2 ht'

/-- With unique ids, a task is determined by its id. -/
theorem id_inj_of_nodup (tasks : List TaskSpec)
    (hnd : (tasks.map TaskSpec.id).Nodup) (t t' : TaskSpec)
    (ht : t ∈ tasks) (ht' : t' ∈ tasks) (h : t.id = t'.id) : t = t' := by
  have h1 := find?_id_of_nodup tasks hnd t ht
  have h2 := find?_id_of_nodup tasks hnd t' ht'
  rw [h] at h1
  rw [h1] at h2
  exact (Option.some.injEq .. ▸ h2)

/-- Folding fresh-key inserts over an accumulator appends the mapped pairs. -/
theorem foldl_set_fresh (f : TaskSpec → α) :
    ∀ (ts : List TaskSpec) (m : SMap α),
      (∀ t ∈ ts, ¬ t.id ∈ m.map Prod.fst) →
      (ts.map TaskSpec.id).Nodup →
      ts.foldl (fun m t => SMap.set m t.id (f t)) m =
        m ++ ts.map (fun t => (t.id, f t)) := by
  intro ts
  induction ts with
  | nil => intro m _ _; simp
  | cons t rest ih =>
    intro m hfresh hnd
    simp only [List.map_cons, List.nodup_cons] at hnd
    rw [List.foldl_cons,
      SMap.set_eq_append m t.id (f t) (hfresh t (List.mem_cons_self _ _)),
      ih (m ++ [(t.id, f t)]) ?_ hnd.2]
    · simp
    · intro t' ht'
      simp only [List.map_append, List.mem_append]
      push_neg
      refine ⟨hfresh t' (List.mem_cons_of_mem _ ht'), ?_⟩
      simp only [List.map_cons, List.map_nil, List.mem_singleton]
      intro hh
      exact hnd.1 (hh ▸ List.mem_map_of_mem TaskSpec.id ht')

/-- The task map built by `topologicalSort`, in closed form. -/
theorem taskMapOf_eq (tasks : List TaskSpec)
    (hnd : (tasks.map TaskSpec.id).Nodup) :
    taskMapOf tasks = tasks.map (fun t => (t.id, t)) := by
  simpa using foldl_set_fresh (fun t => t) tasks [] (by simp) hnd

/-- The zero in-degree map, in closed form. -/
theorem inDegreeZero_eq (tasks : List TaskSpec)
    (hnd : (tasks.map TaskSpec.id).Nodup) :
    inDegreeZero tasks = tasks.map (fun t => (t.id, (0 : Int))) := by
  simpa using foldl_set_fresh (fun _ => (0 : Int)) tasks [] (by simp) hnd

/-- The empty adjacency map, in closed form. -/
theorem adjListEmpty_eq (tasks : List TaskSpec)
    (hnd : (tasks.map TaskSpec.id).Nodup) :
    adjListEmpty tasks = tasks.map (fun t => (t.id, ([] : List String))) := by
  simpa using foldl_set_fresh (fun _ => ([] : List String)) tasks [] (by simp)
    hnd

theorem SMap.get?_isSome_of_mem (m : SMap α) (k : String)
    (h : k ∈ m.map Prod.fst) : (SMap.get? m k).isSome := by
  induction m with
  | nil => simp at h
  | cons e rest ih =>
    by_cases he : e.1 = k
    · simp [SMap.get?, List.find?, he]
    · simp only [List.map_cons, List.mem_cons] at h
      rcases h with h | h
      · exact absurd h.symm he
      · simpa [SMap.get?, List.find?, he] using ih h

theorem SMap.get?_of_mem_nodup (m : SMap α) (k : String) (v : α)
    (hnd : (m.map Prod.fst).Nodup) (h : (k, v) ∈ m) :
    SMap.get? m k = some v := by
  induction m with
  | nil => simp at h
  | cons e rest ih =>
    simp only [List.map_cons, List.nodup_cons] at hnd
    rcases List.mem_cons.mp h with heq | h'
    · rw [← heq]; simp [SMap.get?, List.find?]
    · have he : ¬ (e.1 = k) := by
        intro hh
        apply hnd.1
        rw [hh]
        exact List.mem_map_of_mem Prod.fst h'
      simpa [SMap.get?, List.find?, he] using ih hnd.2 h'

theorem SMap.mem_of_get?_eq_some (m : SMap α) (k : String) (v : α)
    (h : SMap.get? m k = some v) : (k, v) ∈ m := by
  unfold SMap.get? at h
  cases hf : List.find? (fun e => e.1 = k) m with
  | none => rw [hf] at h; simp at h
  | some e =>
    rw [hf] at h
    simp only [Option.map_some'] at h
    have hmem := List.mem_of_find?_eq_some hf
    have hpred := List.find?_some hf
    simp only [decide_eq_true_eq] at hpred
    obtain ⟨a, b⟩ := e
    simp only at hpred h
    have hbv : b = v := Option.some.inj h
    rw [← hpred, ← hbv]
    exact hmem

/-- Membership in the seeded queue: exactly the keys mapped to degree 0. -/
theorem mem_initQueue (deg : SMap Int) (k : String)
    (hnd : (deg.map Prod.fst).Nodup) :
    k ∈ initQueue deg ↔ SMap.get? deg k = some 0 := by
  constructor
  · intro h
    obtain ⟨e, he, heq⟩ := List.mem_map.mp h
    obtain ⟨hem, hpe⟩ := List.mem_filter.mp he
    simp only [decide_eq_true_eq] at hpe
    rw [← heq, ← hpe]
    exact SMap.get?_of_mem_nodup deg e.1 e.2 hnd hem
  · intro h
    have hmem := SMap.mem_of_get?_eq_some deg k 0 h
    exact List.mem_map.mpr ⟨(k, 0), List.mem_filter.mpr ⟨hmem, by simp⟩, rfl⟩

/-- The seeded queue is a sublist of the key list. -/
theorem initQueue_sublist (deg : SMap Int) :
    List.Sublist (initQueue deg) (deg.map Prod.fst) :=
  List.Sublist.map _ (List.filter_sublist _)

theorem applyEdges_append (E1 E2 : List (String × String)) :
    ∀ (adj : SMap (List String)) (deg : SMap Int),
      applyEdges (E1 ++ E2) (adj, deg) =
        applyEdges E2 (applyEdges E1 (adj, deg)) := by
  induction E1 with
  | nil => intro adj deg; rfl
  | cons e rest ih =>
    intro adj deg
    obtain ⟨d, tid⟩ := e
    simp only [List.cons_append, applyEdges]
    exact ih _ _

/-- Pointwise closed form of the edge replay: keys are preserved, each
adjacency value receives the dependents of its key in edge order, and each
degree value receives the number of edges into its key. -/
theorem applyEdges_spec :
    ∀ (E : List (String × String)) (adj : SMap (List String)) (deg : SMap Int),
      (∀ e ∈ E, e.1 ∈ adj.map Prod.fst) →
      (∀ e ∈ E, e.2 ∈ deg.map Prod.fst) →
      ((applyEdges E (adj, deg)).1.map Prod.fst = adj.map Prod.fst) ∧
      ((applyEdges E (adj, deg)).2.map Prod.fst = deg.map Prod.fst) ∧
      (∀ k, SMap.get? (applyEdges E (adj, deg)).1 k =
        (SMap.get? adj k).map
          (fun l => l ++ (E.filter (fun e => e.1 = k)).map Prod.snd)) ∧
      (∀ k, SMap.get? (applyEdges E (adj, deg)).2 k =
        (SMap.get? deg k).map
          (fun x => x + ((E.filter (fun e => e.2 = k)).length : Int))) := by
  intro E
  induction E with
  | nil =>
    intro adj deg _ _
    refine ⟨rfl, rfl, fun k => ?_, fun k => ?_⟩
    · cases h : SMap.get? adj k <;> simp [applyEdges, h]
    · cases h : SMap.get? deg k <;> simp [applyEdges, h]
  | cons e rest ih =>
    intro adj deg hadj hdeg
    obtain ⟨d, tid⟩ := e
    have hd : d ∈ adj.map Prod.fst := hadj (d, tid) (List.mem_cons_self _ _)
    have ht : tid ∈ deg.map Prod.fst := hdeg (d, tid) (List.mem_cons_self _ _)
    obtain ⟨l0, hl0⟩ : ∃ l0, SMap.get? adj d = some l0 :=
      Option.isSome_iff_exists.mp (SMap.get?_isSome_of_mem adj d hd)
    obtain ⟨x0, hx0⟩ : ∃ x0, SMap.get? deg tid = some x0 :=
      Option.isSome_iff_exists.mp (SMap.get?_isSome_of_mem deg tid ht)
    have hstep : applyEdges ((d, tid) :: rest) (adj, deg) =
        applyEdges rest
          (SMap.set adj d (((SMap.get? adj d).getD []) ++ [tid]),
           SMap.set deg tid (((SMap.get? deg tid).getD 0) + 1)) := rfl
    have hka : (SMap.set adj d (((SMap.get? adj d).getD []) ++ [tid])).map
        Prod.fst = adj.map Prod.fst := SMap.keys_set_of_mem _ _ _ hd
    have hkd : (SMap.set deg tid (((SMap.get? deg tid).getD 0) + 1)).map
        Prod.fst = deg.map Prod.fst := SMap.keys_set_of_mem _ _ _ ht
    have hrec := ih _ _
      (fun e he => by rw [hka]; exact hadj e (List.mem_cons_of_mem _ he))
      (fun e he => by rw [hkd]; exact hdeg e (List.mem_cons_of_mem _ he))
    refine ⟨?_, ?_, fun k => ?_, fun k => ?_⟩
    · rw [hstep, hrec.1, hka]
    · rw [hstep, hrec.2.1, hkd]
    · rw [hstep, hrec.2.2.1 k]
      by_cases hk : d = k
      · subst hk
        rw [SMap.get?_set_self, hl0]
        simp [List.filter_cons]
      · rw [SMap.get?_set_ne _ _ _ _ (fun hh => hk hh.symm)]
        have : List.filter (fun e => decide (e.1 = k)) ((d, tid) :: rest) =
            List.filter (fun e => decide (e.1 = k)) rest := by
          simp [List.filter_cons, hk]
        rw [this]
    · rw [hstep, hrec.2.2.2 k]
      by_cases hk : tid = k
      · subst hk
        rw [SMap.get?_set_self, hx0]
        simp [List.filter_cons]
        ring
      · rw [SMap.get?_set_ne _ _ _ _ (fun hh => hk hh.symm)]
        have : List.filter (fun e => decide (e.2 = k)) ((d, tid) :: rest) =
            List.filter (fun e => decide (e.2 = k)) rest := by
          simp [List.filter_cons, hk]
        rw [this]

theorem except_bind_ok {ε α β : Type} (x : α) (f : α → Except ε β) :
    (Except.ok (ε := ε) x >>= f) = f x := rfl

/-- When every dependency passes the `taskMap.has` check, the per-task edge
loop never throws and replays exactly the edges of that task. -/
theorem addTaskEdges_eq (taskMap : SMap TaskSpec) (tid : String) :
    ∀ (deps : List String) (adj : SMap (List String)) (deg : SMap Int),
      (∀ d ∈ deps, SMap.has taskMap d = true) →
      addTaskEdges taskMap tid deps (adj, deg) =
        .ok (applyEdges (deps.map (fun d => (d, tid))) (adj, deg)) := by
  intro deps
  induction deps with
  | nil => intro adj deg _; rfl
  | cons d rest ih =>
    intro adj deg hall
    have hd := hall d (List.mem_cons_self _ _)
    rw [List.map_cons]
    simp only [addTaskEdges, hd, if_true, applyEdges]
    exact ih _ _ (fun d hd => hall d (List.mem_cons_of_mem _ hd))

/-- When every dependency passes the `taskMap.has` check, the graph build
never throws and replays exactly the edge list of the task list. -/
theorem buildGraph_eq (taskMap : SMap TaskSpec) :
    ∀ (ts : List TaskSpec) (adj : SMap (List String)) (deg : SMap Int),
      (∀ t ∈ ts, ∀ d ∈ t.dependencies, SMap.has taskMap d = true) →
      buildGraph taskMap ts (adj, deg) =
        .ok (applyEdges (taskEdges ts) (adj, deg)) := by
  intro ts
  induction ts with
  | nil => intro adj deg _; rfl
  | cons t rest ih =>
    intro adj deg hall
    have h1 := addTaskEdges_eq taskMap t.id t.dependencies adj deg
      (hall t (List.mem_cons_self _ _))
    have h2 : taskEdges (t :: rest) =
        t.dependencies.map (fun d => (d, t.id)) ++ taskEdges rest := by
      simp [taskEdges]
    rcases hAD : applyEdges (t.dependencies.map (fun d => (d, t.id)))
      (adj, deg) with ⟨adj1, deg1⟩
    rw [h2, applyEdges_append, hAD]
    show (addTaskEdges taskMap t.id t.dependencies (adj, deg) >>=
      fun st1 => buildGraph taskMap rest st1) = _
    rw [h1, hAD, except_bind_ok]
    exact ih adj1 deg1 (fun u hu => hall u (List.mem_cons_of_mem _ hu))

/-- Every edge of the edge list joins a dependency of a listed task to that
task. -/
theorem mem_taskEdges (ts : List TaskSpec) (e : String × String)
    (h : e ∈ taskEdges ts) :
    ∃ t ∈ ts, e.2 = t.id ∧ e.1 ∈ t.dependencies := by
  obtain ⟨t, ht, he⟩ := List.mem_flatMap.mp h
  obtain ⟨d, hd, heq⟩ := List.mem_map.mp he
  exact ⟨t, ht, by rw [← heq], by rw [← heq]; exact hd⟩

/-- Filtering a duplicate-free list for one value. -/
theorem filter_eq_singleton_of_nodup (l : List String) (k : String)
    (hnd : l.Nodup) :
    l.filter (fun d => d = k) = if k ∈ l then [k] else [] := by
  induction l with
  | nil => simp
  | cons a rest ih =>
    simp only [List.nodup_cons] at hnd
    by_cases ha : a = k
    · subst ha
      have hrest : rest.filter (fun d => d = a) = [] := by
        refine List.filter_eq_nil_iff.mpr (fun d hd => ?_)
        simp only [decide_eq_true_eq]
        intro hdk
        exact hnd.1 (hdk ▸ hd)
      simp [List.filter_cons, hrest]
    · have hka : ¬ k = a := fun h => ha h.symm
      rw [List.filter_cons, ih hnd.2]
      by_cases hk : k ∈ rest
      · simp [ha, hk, List.mem_cons]
      · simp [ha, hka, hk, List.mem_cons]

/-- The successor list of any id is duplicate-free when ids are. -/
theorem succsOf_nodup (tasks : List TaskSpec) (d : String)
    (hnd : (tasks.map TaskSpec.id).Nodup) : (succsOf tasks d).Nodup :=
  hnd.sublist (List.Sublist.map _ (List.filter_sublist _))

theorem succsOf_subset_ids (tasks : List TaskSpec) (d : String) :
    ∀ x ∈ succsOf tasks d, x ∈ tasks.map TaskSpec.id := fun x hx =>
  (List.Sublist.map TaskSpec.id (List.filter_sublist _)).mem hx

/-- Membership in a successor list, for listed tasks under unique ids. -/
theorem mem_succsOf (tasks : List TaskSpec)
    (hnd : (tasks.map TaskSpec.id).Nodup) (t : TaskSpec) (ht : t ∈ tasks)
    (d : String) : t.id ∈ succsOf tasks d ↔ d ∈ t.dependencies := by
  constructor
  · intro h
    obtain ⟨u, hu, huid⟩ := List.mem_map.mp h
    obtain ⟨humem, hud⟩ := List.mem_filter.mp hu
    have := id_inj_of_nodup tasks hnd u t humem ht huid
    subst this
    simpa using hud
  · intro h
    exact List.mem_map.mpr ⟨t, List.mem_filter.mpr ⟨ht, by simpa using h⟩, rfl⟩

/-- Edges out of `k`, resolved: the dependents of `k` in task order. -/
theorem taskEdges_filter_fst (k : String) :
    ∀ (ts : List TaskSpec), (∀ t ∈ ts, t.dependencies.Nodup) →
      ((taskEdges ts).filter (fun e => e.1 = k)).map Prod.snd = succsOf ts k := by
  intro ts
  induction ts with
  | nil => intro _; rfl
  | cons t rest ih =>
    intro hnd
    have h2 : taskEdges (t :: rest) =
        t.dependencies.map (fun d => (d, t.id)) ++ taskEdges rest := by
      simp [taskEdges]
    rw [h2, List.filter_append, List.map_append,
      ih (fun u hu => hnd u (List.mem_cons_of_mem _ hu))]
    have h3 : ((t.dependencies.map (fun d => (d, t.id))).filter
        (fun e => e.1 = k)).map Prod.snd =
        (t.dependencies.filter (fun d => d = k)).map (fun _ => t.id) := by
      rw [List.filter_map, List.map_map]
      rfl
    rw [h3, filter_eq_singleton_of_nodup _ _ (hnd t (List.mem_cons_self _ _))]
    by_cases hk : k ∈ t.dependencies
    · simp [succsOf, List.filter_cons, hk]
    · simp [succsOf, List.filter_cons, hk]

/-- No edge of the edge list enters an id outside the task list. -/
theorem taskEdges_filter_snd_nil (k : String) (ts : List TaskSpec)
    (hk : ¬ k ∈ ts.map TaskSpec.id) :
    (taskEdges ts).filter (fun e => e.2 = k) = [] := by
  refine List.filter_eq_nil_iff.mpr (fun e he => ?_)
  simp only [decide_eq_true_eq]
  intro h2
  obtain ⟨t, ht, hid, _⟩ := mem_taskEdges ts e he
  exact hk (h2 ▸ hid ▸ List.mem_map_of_mem TaskSpec.id ht)

/-- Edges into a listed task, resolved: one per dependency of that task. -/
theorem taskEdges_filter_snd (t : TaskSpec) :
    ∀ (ts : List TaskSpec), (ts.map TaskSpec.id).Nodup → t ∈ ts →
      (taskEdges ts).filter (fun e => e.2 = t.id) =
        t.dependencies.map (fun d => (d, t.id)) := by
  intro ts
  induction ts with
  | nil => intro _ h; simp at h
  | cons u rest ih =>
    intro hnd ht
    simp only [List.map_cons, List.nodup_cons] at hnd
    have h2 : taskEdges (u :: rest) =
        u.dependencies.map (fun d => (d, u.id)) ++ taskEdges rest := by
      simp [taskEdges]
    rw [h2, List.filter_append]
    rcases List.mem_cons.mp ht with heq | ht'
    · subst heq
      have hfirst : (t.dependencies.map (fun d => (d, t.id))).filter
          (fun e => e.2 = t.id) = t.dependencies.map (fun d => (d, t.id)) := by
        refine List.filter_eq_self.mpr (fun e he => ?_)
        obtain ⟨d, _, heq⟩ := List.mem_map.mp he
        simp [← heq]
      rw [hfirst, taskEdges_filter_snd_nil t.id rest hnd.1, List.append_nil]
    · have hne : ¬ (u.id = t.id) := by
        intro hh
        exact hnd.1 (hh ▸ List.mem_map_of_mem TaskSpec.id ht')
      have hfirst : (u.dependencies.map (fun d => (d, u.id))).filter
          (fun e => e.2 = t.id) = [] := by
        refine List.filter_eq_nil_iff.mpr (fun e he => ?_)
        obtain ⟨d, _, heq⟩ := List.mem_map.mp he
        simp [← heq, hne]
      rw [hfirst, List.nil_append]
      exact ih hnd.2 ht'

theorem length_filter_ne (a : String) :
    ∀ (l : List String), l.Nodup → a ∈ l →
      (l.filter (fun d => ¬ d = a)).length = l.length - 1 := by
  intro l
  induction l with
  | nil => intro _ h; simp at h
  | cons b rest ih =>
    intro hnd ha
    simp only [List.nodup_cons] at hnd
    by_cases hb : b = a
    · subst hb
      have hself : rest.filter (fun d => ¬ d = b) = rest := by
        refine List.filter_eq_self.mpr (fun x hx => ?_)
        simp only [decide_eq_true_eq]
        intro hxb
        exact hnd.1 (hxb ▸ hx)
      rw [List.filter_cons, if_neg (by simp), hself]
      simp
    · have ha' : a ∈ rest := by
        rcases List.mem_cons.mp ha with h | h
        · exact absurd h.symm hb
        · exact h
      have hpos := List.length_pos_of_mem ha'
      rw [List.filter_cons,
        if_pos (show decide (¬ b = a) = true by simpa using hb)]
      simp only [List.length_cons]
      rw [ih hnd.2 ha']
      omega

theorem remDeps_nil (t : TaskSpec) :
    remDeps [] t = t.dependencies.length := by
  simp [remDeps]

/-- Marking an id that is not a dependency leaves the remaining-dependency
count unchanged. -/
theorem remDeps_extend_not_mem (t : TaskSpec) (P : List String) (id0 : String)
    (h : ¬ id0 ∈ t.dependencies) : remDeps (P ++ [id0]) t = remDeps P t := by
  unfold remDeps
  congr 1
  refine List.filter_congr (fun x hx => ?_)
  have hxi : ¬ x = id0 := fun hh => h (hh ▸ hx)
  simp [List.mem_append, hxi]

/-- Marking a not-yet-marked dependency decrements the remaining-dependency
count, which was positive. -/
theorem remDeps_extend_mem (t : TaskSpec) (P : List String) (id0 : String)
    (hnd : t.dependencies.Nodup) (hmem : id0 ∈ t.dependencies)
    (hP : ¬ id0 ∈ P) :
    remDeps (P ++ [id0]) t = remDeps P t - 1 ∧ 1 ≤ remDeps P t := by
  have hsplit : t.dependencies.filter (fun d => decide (¬ d ∈ P ++ [id0])) =
      (t.dependencies.filter (fun d => ¬ d ∈ P)).filter (fun d => ¬ d = id0) := by
    rw [List.filter_filter]
    refine List.filter_congr (fun x _ => ?_)
    rcases Decidable.em (x = id0) with hx0 | hx0
    · subst hx0
      simp [List.mem_append, hP]
    · by_cases hxP : x ∈ P <;> simp [List.mem_append, hx0, hxP]
  have hR0 : id0 ∈ t.dependencies.filter (fun d => ¬ d ∈ P) :=
    List.mem_filter.mpr ⟨hmem, by simpa using hP⟩
  have hRnd : (t.dependencies.filter (fun d => ¬ d ∈ P)).Nodup :=
    hnd.filter _
  constructor
  · show (t.dependencies.filter (fun d => decide (¬ d ∈ P ++ [id0]))).length = _
    rw [hsplit, length_filter_ne id0 _ hRnd hR0]
    rfl
  · exact List.length_pos_of_mem hR0

/-- The remaining-dependency count is zero exactly when every dependency is
marked. -/
theorem remDeps_eq_zero_iff (t : TaskSpec) (P : List String) :
    remDeps P t = 0 ↔ ∀ d ∈ t.dependencies, d ∈ P := by
  unfold remDeps
  rw [List.length_eq_zero, List.filter_eq_nil_iff]
  simp

/-- A task reaches remaining-dependency count 1 at a marked id exactly when
that id completes its dependencies without them having been complete. -/
theorem remDeps_one_iff (t : TaskSpec) (P : List String) (id0 : String)
    (hnd : t.dependencies.Nodup) (hP : ¬ id0 ∈ P) :
    (remDeps P t = 1 ∧ id0 ∈ t.dependencies) ↔
      (¬ (∀ d ∈ t.dependencies, d ∈ P) ∧
        ∀ d ∈ t.dependencies, d ∈ P ++ [id0]) := by
  rw [← remDeps_eq_zero_iff, ← remDeps_eq_zero_iff]
  constructor
  · rintro ⟨h1, hmem⟩
    obtain ⟨he, _⟩ := remDeps_extend_mem t P id0 hnd hmem hP
    exact ⟨by omega, by omega⟩
  · rintro ⟨h1, h2⟩
    by_cases hmem : id0 ∈ t.dependencies
    · obtain ⟨he, hge⟩ := remDeps_extend_mem t P id0 hnd hmem hP
      exact ⟨by omega, hmem⟩
    · rw [remDeps_extend_not_mem t P id0 hmem] at h2
      exact absurd h2 h1

/-- Closed form of the successor relaxation: keys are preserved, every
successor's degree drops by one, and exactly the successors at degree 1 are
enqueued, in order. -/
theorem relaxSuccessors_spec :
    ∀ (succs : List String) (deg : SMap Int),
      (∀ d ∈ succs, d ∈ deg.map Prod.fst) → succs.Nodup →
      ((relaxSuccessors deg succs).1.map Prod.fst = deg.map Prod.fst) ∧
      (∀ k, SMap.get? (relaxSuccessors deg succs).1 k =
        if k ∈ succs then (SMap.get? deg k).map (fun x => x - 1)
        else SMap.get? deg k) ∧
      (relaxSuccessors deg succs).2 =
        succs.filter (fun d => SMap.get? deg d = some 1) := by
  intro succs
  induction succs with
  | nil =>
    intro deg _ _
    exact ⟨rfl, fun k => by simp [relaxSuccessors], rfl⟩
  | cons d rest ih =>
    intro deg hsub hnd
    simp only [List.nodup_cons] at hnd
    have hd : d ∈ deg.map Prod.fst := hsub d (List.mem_cons_self _ _)
    obtain ⟨x0, hx0⟩ : ∃ x0, SMap.get? deg d = some x0 :=
      Option.isSome_iff_exists.mp (SMap.get?_isSome_of_mem deg d hd)
    have hk1 : (SMap.set deg d (((SMap.get? deg d).getD 0) - 1)).map Prod.fst =
        deg.map Prod.fst := SMap.keys_set_of_mem _ _ _ hd
    have hrec := ih (SMap.set deg d (((SMap.get? deg d).getD 0) - 1))
      (fun x hx => by rw [hk1]; exact hsub x (List.mem_cons_of_mem _ hx))
      hnd.2
    have hstep1 : (relaxSuccessors deg (d :: rest)).1 =
        (relaxSuccessors (SMap.set deg d (((SMap.get? deg d).getD 0) - 1))
          rest).1 := by
      simp [relaxSuccessors]
    have hstep2 : (relaxSuccessors deg (d :: rest)).2 =
        (if ((SMap.get? deg d).getD 0) - 1 = 0 then [d] else []) ++
        (relaxSuccessors (SMap.set deg d (((SMap.get? deg d).getD 0) - 1))
          rest).2 := by
      simp [relaxSuccessors]
    have hother : ∀ c, ¬ c = d →
        SMap.get? (SMap.set deg d (((SMap.get? deg d).getD 0) - 1)) c =
          SMap.get? deg c := fun c hc =>
      SMap.get?_set_ne deg d c _ hc
    refine ⟨?_, fun k => ?_, ?_⟩
    · rw [hstep1, hrec.1, hk1]
    · rw [hstep1, hrec.2.1 k]
      by_cases hkd : k = d
      · subst hkd
        rw [if_neg (fun hh => hnd.1 hh), if_pos (List.mem_cons_self _ _),
          SMap.get?_set_self, hx0]
        simp
      · rw [hother k hkd]
        by_cases hkr : k ∈ rest
        · rw [if_pos hkr, if_pos (List.mem_cons_of_mem _ hkr)]
        · rw [if_neg hkr, if_neg (by
            intro hh
            rcases List.mem_cons.mp hh with hh | hh
            · exact hkd hh
            · exact hkr hh)]
    · rw [hstep2, hrec.2.2]
      have hre : rest.filter (fun c =>
          SMap.get? (SMap.set deg d (((SMap.get? deg d).getD 0) - 1)) c =
            some 1) = rest.filter (fun c => SMap.get? deg c = some 1) := by
        refine List.filter_congr (fun c hc => ?_)
        have hcd : ¬ c = d := fun hh => hnd.1 (hh ▸ hc)
        rw [hother c hcd]
      rw [hre, List.filter_cons, hx0]
      by_cases hx1 : x0 = 1
      · subst hx1
        simp
      · have : ¬ (x0 - 1 = 0) := by omega
        simp [hx1, this]

/-- Closed form of one frontier pass: keys are preserved, the degree map
tracks the remaining-dependency counts after marking the frontier, and the
enqueued ids are exactly the tasks completed by the frontier but not before,
each once. -/
theorem processLayerIds_spec (tasks : List TaskSpec)
    (adj : SMap (List String))
    (hids : (tasks.map TaskSpec.id).Nodup)
    (hdnd : ∀ t ∈ tasks, t.dependencies.Nodup)
    (hadj : ∀ id ∈ tasks.map TaskSpec.id,
      SMap.get? adj id = some (succsOf tasks id)) :
    ∀ (f P : List String) (deg : SMap Int),
      (P ++ f).Nodup →
      (∀ x ∈ P ++ f, x ∈ tasks.map TaskSpec.id) →
      deg.map Prod.fst = tasks.map TaskSpec.id →
      (∀ t ∈ tasks, SMap.get? deg t.id = some ((remDeps P t : Nat) : Int)) →
      (∀ t ∈ tasks, t.id ∈ P ++ f → ∀ d ∈ t.dependencies, d ∈ P) →
      ((processLayerIds adj deg f).1.map Prod.fst = tasks.map TaskSpec.id) ∧
      (∀ t ∈ tasks, SMap.get? (processLayerIds adj deg f).1 t.id =
        some ((remDeps (P ++ f) t : Nat) : Int)) ∧
      (∀ k, k ∈ (processLayerIds adj deg f).2 ↔
        ∃ t ∈ tasks, k = t.id ∧ ¬ (∀ d ∈ t.dependencies, d ∈ P) ∧
          ∀ d ∈ t.dependencies, d ∈ P ++ f) ∧
      (processLayerIds adj deg f).2.Nodup := by
  intro f
  induction f with
  | nil =>
    intro P deg hnd hmem hkeys hdeg hready
    refine ⟨hkeys, fun t ht => by simpa using hdeg t ht, fun k => ?_,
      by simp [processLayerIds]⟩
    simp only [processLayerIds]
    constructor
    · intro h
      simp at h
    · rintro ⟨t, ht, rfl, hnp, hp⟩
      exact absurd (fun d hd => by simpa using hp d hd) hnp
  | cons id0 rest ih =>
    intro P deg hnd hmem hkeys hdeg hready
    have hid0ids : id0 ∈ tasks.map TaskSpec.id := hmem id0 (by simp)
    have hadj0 := hadj id0 hid0ids
    have hsuccs : (SMap.get? adj id0).getD [] = succsOf tasks id0 := by
      rw [hadj0]
      rfl
    have hid0P : ¬ id0 ∈ P := by
      have h3 := (List.nodup_append.mp hnd).2.2
      intro hmemP
      exact h3 hmemP (by simp)
    have hlist : P ++ id0 :: rest = (P ++ [id0]) ++ rest :=
      List.append_cons P id0 rest
    have hSsub : ∀ d ∈ succsOf tasks id0, d ∈ deg.map Prod.fst := by
      intro d hdS
      rw [hkeys]
      exact succsOf_subset_ids tasks id0 d hdS
    have hSnd : (succsOf tasks id0).Nodup := succsOf_nodup tasks id0 hids
    obtain ⟨hrk, hrp, hre⟩ :=
      relaxSuccessors_spec (succsOf tasks id0) deg hSsub hSnd
    rcases hr : relaxSuccessors deg (succsOf tasks id0) with ⟨deg1, enq1⟩
    rw [hr] at hrk hrp hre
    simp only at hrk hrp hre
    have hkeys1 : deg1.map Prod.fst = tasks.map TaskSpec.id := by
      rw [hrk, hkeys]
    have hdeg1 : ∀ t ∈ tasks,
        SMap.get? deg1 t.id = some ((remDeps (P ++ [id0]) t : Nat) : Int) := by
      intro t ht
      rw [hrp t.id]
      by_cases hts : t.id ∈ succsOf tasks id0
      · have hidd : id0 ∈ t.dependencies :=
          (mem_succsOf tasks hids t ht id0).mp hts
        obtain ⟨heq, hge⟩ :=
          remDeps_extend_mem t P id0 (hdnd t ht) hidd hid0P
        rw [if_pos hts, hdeg t ht, heq]
        simp only [Option.map_some']
        congr 1
        omega
      · have hidd : ¬ id0 ∈ t.dependencies :=
          fun h => hts ((mem_succsOf tasks hids t ht id0).mpr h)
        rw [if_neg hts, hdeg t ht, remDeps_extend_not_mem t P id0 hidd]
    have hnd' : ((P ++ [id0]) ++ rest).Nodup := by
      rw [← hlist]
      exact hnd
    have hmem' : ∀ x ∈ (P ++ [id0]) ++ rest, x ∈ tasks.map TaskSpec.id := by
      rw [← hlist]
      exact hmem
    have hready' : ∀ t ∈ tasks, t.id ∈ (P ++ [id0]) ++ rest →
        ∀ d ∈ t.dependencies, d ∈ P ++ [id0] := by
      intro t ht hin d hd
      rw [← hlist] at hin
      exact List.mem_append_left _ (hready t ht hin d hd)
    obtain ⟨ihk, ihdeg, ihenq, ihnd⟩ :=
      ih (P ++ [id0]) deg1 hnd' hmem' hkeys1 hdeg1 hready'
    rcases hp2 : processLayerIds adj deg1 rest with ⟨deg2, enq2⟩
    rw [hp2] at ihk ihdeg ihenq ihnd
    simp only at ihk ihdeg ihenq ihnd
    have hstep : processLayerIds adj deg (id0 :: rest) = (deg2, enq1 ++ enq2) := by
      simp [processLayerIds, hsuccs, hr, hp2]
    -- characterization of the head enqueue list
    have henq1 : ∀ k, k ∈ enq1 ↔
        ∃ u ∈ tasks, k = u.id ∧ ¬ (∀ d ∈ u.dependencies, d ∈ P) ∧
          ∀ d ∈ u.dependencies, d ∈ P ++ [id0] := by
      intro k
      rw [hre]
      constructor
      · intro hk
        obtain ⟨hkS, hk1⟩ := List.mem_filter.mp hk
        obtain ⟨u, hu, hkid⟩ := List.mem_map.mp hkS
        obtain ⟨humem, hud⟩ := List.mem_filter.mp hu
        have hud' : id0 ∈ u.dependencies := by simpa using hud
        have hval : SMap.get? deg k = some 1 := by simpa using hk1
        rw [← hkid, hdeg u humem] at hval
        have hrd : remDeps P u = 1 := by
          have := Option.some.inj hval
          omega
        obtain ⟨hnp, hp⟩ :=
          (remDeps_one_iff u P id0 (hdnd u humem) hid0P).mp ⟨hrd, hud'⟩
        exact ⟨u, humem, hkid.symm, hnp, hp⟩
      · rintro ⟨u, hu, rfl, hnp, hp⟩
        have hpair := (remDeps_one_iff u P id0 (hdnd u hu) hid0P).mpr ⟨hnp, hp⟩
        refine List.mem_filter.mpr ⟨?_, ?_⟩
        · exact (mem_succsOf tasks hids u hu id0).mpr hpair.2
        · rw [hdeg u hu]
          simp [hpair.1]
    refine ⟨?_, ?_, ?_, ?_⟩
    · rw [hstep]
      exact ihk
    · intro t ht
      rw [hstep]
      simp only
      rw [ihdeg t ht, ← hlist]
    · intro k
      rw [hstep]
      simp only [List.mem_append]
      constructor
      · rintro (hk | hk)
        · obtain ⟨u, hu, rfl, hnp, hp⟩ := (henq1 k).mp hk
          refine ⟨u, hu, rfl, hnp, fun d hd => ?_⟩
          rcases List.mem_append.mp (hp d hd) with h | h
          · exact Or.inl h
          · simp at h
            simp [h]
        · obtain ⟨u, hu, rfl, hnp, hp⟩ := (ihenq k).mp hk
          refine ⟨u, hu, rfl, ?_, ?_⟩
          · intro hall
            exact hnp (fun d hd => List.mem_append_left _ (hall d hd))
          · intro d hd
            have h2 := hp d hd
            rw [← hlist] at h2
            exact List.mem_append.mp h2
      · rintro ⟨u, hu, rfl, hnp, hp⟩
        by_cases hcase : ∀ d ∈ u.dependencies, d ∈ P ++ [id0]
        · exact Or.inl ((henq1 u.id).mpr ⟨u, hu, rfl, hnp, hcase⟩)
        · refine Or.inr ((ihenq u.id).mpr ⟨u, hu, rfl, hcase, fun d hd => ?_⟩)
          rw [← hlist]
          exact List.mem_append.mpr (hp d hd)
    · rw [hstep]
      simp only
      rw [List.nodup_append]
      refine ⟨?_, ihnd, ?_⟩
      · rw [hre]
        exact hSnd.filter _
      · intro k hk1 hk2
        obtain ⟨u, hu, rfl, _, hp1⟩ := (henq1 k).mp hk1
        obtain ⟨w, hw, hwk, hnp2, _⟩ := (ihenq u.id).mp hk2
        have : w = u := id_inj_of_nodup tasks hids w u hw hu hwk.symm
        subst this
        exact hnp2 hp1

theorem idRespectFrom_nil (tasks : List TaskSpec) (P : List String) :
    IdRespectFrom tasks P [] := by
  intro i hi
  simp at hi

theorem idRespectFrom_cons (tasks : List TaskSpec) (P : List String)
    (L : List String) (rest : List (List String)) :
    IdRespectFrom tasks P (L :: rest) ↔
      ((∀ id ∈ L, ∀ t ∈ tasks, t.id = id → ∀ d ∈ t.dependencies, d ∈ P) ∧
        IdRespectFrom tasks (P ++ L) rest) := by
  constructor
  · intro h
    constructor
    · intro id hid t ht htid d hd
      have h0 := h 0 (by simp) id hid t ht htid d hd
      simpa using h0
    · intro i hi id hid t ht htid d hd
      have hi' : i + 1 < (L :: rest).length := by
        simpa using Nat.succ_lt_succ hi
      have hget : (L :: rest).get ⟨i + 1, hi'⟩ = rest.get ⟨i, hi⟩ := rfl
      have h1 := h (i + 1) hi' id (hget ▸ hid) t ht htid d hd
      rw [List.take_succ_cons, List.flatten_cons, ← List.append_assoc] at h1
      exact h1
  · rintro ⟨h0, hrest⟩ i hi id hid t ht htid d hd
    cases i with
    | zero =>
      simpa using h0 id hid t ht htid d hd
    | succ i =>
      have hi2 : i < rest.length := by simpa using Nat.lt_of_succ_lt_succ hi
      have hget : (L :: rest).get ⟨i + 1, hi⟩ = rest.get ⟨i, hi2⟩ := rfl
      have h1 := hrest i hi2 id (hget ▸ hid) t ht htid d hd
      rw [List.take_succ_cons, List.flatten_cons, ← List.append_assoc]
      exact h1

/-- Master invariant of the layered Kahn loop: starting from a consistent
degree map and a ready frontier, the produced layers extend the placed ids
without duplicates, respect dependencies, and at the end every task whose
dependencies are all placed is itself placed. -/
theorem kahn_master (tasks : List TaskSpec)
    (adj : SMap (List String))
    (hids : (tasks.map TaskSpec.id).Nodup)
    (hdnd : ∀ t ∈ tasks, t.dependencies.Nodup)
    (hadj : ∀ id ∈ tasks.map TaskSpec.id,
      SMap.get? adj id = some (succsOf tasks id)) :
    ∀ (fuel : Nat) (P f : List String) (deg : SMap Int),
      tasks.length ≤ fuel + P.length →
      (P ++ f).Nodup →
      (∀ x ∈ P ++ f, x ∈ tasks.map TaskSpec.id) →
      deg.map Prod.fst = tasks.map TaskSpec.id →
      (∀ t ∈ tasks, SMap.get? deg t.id = some ((remDeps P t : Nat) : Int)) →
      (∀ t ∈ tasks, t.id ∈ P ++ f → ∀ d ∈ t.dependencies, d ∈ P) →
      (∀ t ∈ tasks, (∀ d ∈ t.dependencies, d ∈ P) → t.id ∈ P ++ f) →
      (P ++ (kahnLayers adj fuel deg f).flatten).Nodup ∧
      (∀ x ∈ (kahnLayers adj fuel deg f).flatten,
        x ∈ tasks.map TaskSpec.id) ∧
      IdRespectFrom tasks P (kahnLayers adj fuel deg f) ∧
      (∀ t ∈ tasks,
        (∀ d ∈ t.dependencies, d ∈ P ++ (kahnLayers adj fuel deg f).flatten) →
        t.id ∈ P ++ (kahnLayers adj fuel deg f).flatten) := by
  intro fuel
  induction fuel with
  | zero =>
    intro P f deg hfuel hnd hmem hkeys hdeg hready hcomplete
    cases f with
    | nil =>
      simp only [kahnLayers, List.flatten_nil]
      refine ⟨by simpa using hnd, by simp, idRespectFrom_nil tasks P, ?_⟩
      intro t ht hall
      refine hcomplete t ht (fun d hd => ?_)
      simpa using hall d hd
    | cons id0 rest =>
      exfalso
      have hle := (List.subperm_of_subset hnd hmem).length_le
      rw [List.length_append, List.length_map] at hle
      simp only [List.length_cons] at hle
      omega
  | succ fuel ihf =>
    intro P f deg hfuel hnd hmem hkeys hdeg hready hcomplete
    cases f with
    | nil =>
      simp only [kahnLayers, List.flatten_nil]
      refine ⟨by simpa using hnd, by simp, idRespectFrom_nil tasks P, ?_⟩
      intro t ht hall
      refine hcomplete t ht (fun d hd => ?_)
      simpa using hall d hd
    | cons id0 rest =>
      obtain ⟨hk1, hdeg1, henq, hennd⟩ := processLayerIds_spec tasks adj hids
        hdnd hadj (id0 :: rest) P deg hnd hmem hkeys hdeg hready
      rcases hpl : processLayerIds adj deg (id0 :: rest) with ⟨deg1, next⟩
      rw [hpl] at hk1 hdeg1 henq hennd
      simp only at hk1 hdeg1 henq hennd
      have hstep : kahnLayers adj (fuel + 1) deg (id0 :: rest) =
          (id0 :: rest) :: kahnLayers adj fuel deg1 next := by
        simp [kahnLayers, hpl]
      have hfresh : ∀ k ∈ next, ¬ k ∈ P ++ id0 :: rest := by
        intro k hk hkin
        obtain ⟨t, ht, rfl, hnp, _⟩ := (henq k).mp hk
        exact hnp (hready t ht hkin)
      have hnd2 : ((P ++ id0 :: rest) ++ next).Nodup := by
        rw [List.nodup_append]
        exact ⟨hnd, hennd, fun a ha hb => hfresh a hb ha⟩
      have hmem2 : ∀ x ∈ (P ++ id0 :: rest) ++ next,
          x ∈ tasks.map TaskSpec.id := by
        intro x hx
        rcases List.mem_append.mp hx with h | h
        · exact hmem x h
        · obtain ⟨t, ht, rfl, _, _⟩ := (henq x).mp h
          exact List.mem_map_of_mem TaskSpec.id ht
      have hready2 : ∀ t ∈ tasks, t.id ∈ (P ++ id0 :: rest) ++ next →
          ∀ d ∈ t.dependencies, d ∈ P ++ id0 :: rest := by
        intro t ht hin d hd
        rcases List.mem_append.mp hin with h | h
        · exact List.mem_append_left _ (hready t ht h d hd)
        · obtain ⟨u, hu, huid, _, hp⟩ := (henq t.id).mp h
          have heq : u = t := id_inj_of_nodup tasks hids u t hu ht huid.symm
          subst heq
          exact hp d hd
      have hcomplete2 : ∀ t ∈ tasks,
          (∀ d ∈ t.dependencies, d ∈ P ++ id0 :: rest) →
          t.id ∈ (P ++ id0 :: rest) ++ next := by
        intro t ht hall
        by_cases hP : ∀ d ∈ t.dependencies, d ∈ P
        · exact List.mem_append_left _ (hcomplete t ht hP)
        · by_cases hin : t.id ∈ P ++ id0 :: rest
          · exact List.mem_append_left _ hin
          · exact List.mem_append_right _
              ((henq t.id).mpr ⟨t, ht, rfl, hP, hall⟩)
      have hfuel2 : tasks.length ≤ fuel + (P ++ id0 :: rest).length := by
        rw [List.length_append]
        simp only [List.length_cons]
        omega
      obtain ⟨c1, c2, c3, c4⟩ := ihf (P ++ id0 :: rest) next deg1 hfuel2 hnd2
        hmem2 hk1 hdeg1 hready2 hcomplete2
      rw [hstep]
      refine ⟨?_, ?_, ?_, ?_⟩
      · rw [List.flatten_cons, ← List.append_assoc]
        exact c1
      · intro x hx
        rw [List.flatten_cons] at hx
        rcases List.mem_append.mp hx with h | h
        · exact hmem x (List.mem_append_right _ h)
        · exact c2 x h
      · rw [idRespectFrom_cons]
        refine ⟨?_, c3⟩
        intro id hid t ht htid d hd
        exact hready t ht (List.mem_append_right _ (htid ▸ hid)) d hd
      · intro t ht hall
        rw [List.flatten_cons, ← List.append_assoc] at hall ⊢
        exact c4 t ht hall

theorem layerIdxOf_lt_of_mem_take (x : String) :
    ∀ (L : List (List String)) (i : Nat), x ∈ (L.take i).flatten →
      layerIdxOf L x < i := by
  intro L
  induction L with
  | nil =>
    intro i h
    simp at h
  | cons l rest ih =>
    intro i h
    cases i with
    | zero => simp at h
    | succ i =>
      rw [List.take_succ_cons, List.flatten_cons] at h
      by_cases hx : x ∈ l
      · simp [layerIdxOf, hx]
      · rcases List.mem_append.mp h with h1 | h1
        · exact absurd h1 hx
        · rw [layerIdxOf, if_neg hx]
          exact Nat.succ_lt_succ (ih i h1)

theorem layerIdxOf_eq_of_mem (x : String) :
    ∀ (L : List (List String)), L.flatten.Nodup →
      ∀ i, (hi : i < L.length) → x ∈ L.get ⟨i, hi⟩ → layerIdxOf L x = i := by
  intro L
  induction L with
  | nil =>
    intro _ i hi
    simp at hi
  | cons l rest ih =>
    intro hnd i hi hx
    rw [List.flatten_cons, List.nodup_append] at hnd
    cases i with
    | zero =>
      have hx0 : x ∈ l := hx
      rw [layerIdxOf, if_pos hx0]
    | succ i =>
      have hi2 : i < rest.length := Nat.lt_of_succ_lt_succ hi
      have hx' : x ∈ rest.get ⟨i, hi2⟩ := hx
      have hflat : x ∈ rest.flatten :=
        List.mem_flatten.mpr ⟨rest.get ⟨i, hi2⟩, List.get_mem rest i hi2, hx'⟩
      have hnl : ¬ x ∈ l := fun hxl => hnd.2.2 hxl hflat
      rw [layerIdxOf, if_neg hnl, ih hnd.2.1 i hi2 hx']

theorem filterMap_flatten {α β : Type} (g : α → Option β) :
    ∀ (L : List (List α)),
      (L.map (List.filterMap g)).flatten = L.flatten.filterMap g := by
  intro L
  induction L with
  | nil => rfl
  | cons l rest ih =>
    rw [List.map_cons, List.flatten_cons, List.flatten_cons, ih,
      List.filterMap_append]

theorem filterMap_of_map (tasks : List TaskSpec) (g : String → Option TaskSpec)
    (h : ∀ t ∈ tasks, g t.id = some t) :
    (tasks.map TaskSpec.id).filterMap g = tasks := by
  induction tasks with
  | nil => rfl
  | cons t rest ih =>
    rw [List.map_cons, List.filterMap_cons, h t (List.mem_cons_self _ _),
      ih (fun u hu => h u (List.mem_cons_of_mem _ hu))]

/-- `taskMap.get(t.id)` recovers a listed task under unique ids. -/
theorem taskMap_get_self (tasks : List TaskSpec)
    (hids : (tasks.map TaskSpec.id).Nodup) (t : TaskSpec) (ht : t ∈ tasks) :
    SMap.get? (taskMapOf tasks) t.id = some t := by
  rw [taskMapOf_eq tasks hids, SMap.get?_taskShaped (fun t => t) tasks t.id,
    find?_id_of_nodup tasks hids t ht]
  rfl

/-- A successful `taskMap.get(id)` yields a listed task carrying that id. -/
theorem taskMap_get_inv (tasks : List TaskSpec)
    (hids : (tasks.map TaskSpec.id).Nodup) (id : String) (t : TaskSpec)
    (h : SMap.get? (taskMapOf tasks) id = some t) : t ∈ tasks ∧ t.id = id := by
  rw [taskMapOf_eq tasks hids, SMap.get?_taskShaped (fun t => t) tasks id] at h
  cases hf : tasks.find? (fun u => u.id = id) with
  | none =>
    rw [hf] at h
    simp at h
  | some u =>
    rw [hf] at h
    simp only [Option.map_some'] at h
    have hm := List.mem_of_find?_eq_some hf
    have hp := List.find?_some hf
    simp only [decide_eq_true_eq] at hp
    have heq : u = t := Option.some.inj h
    exact ⟨heq ▸ hm, heq ▸ hp⟩

/-- Duplicate-free dependency-respecting layers that place every task give a
rank function witnessing acyclicity. -/
theorem layers_acyclic (tasks : List TaskSpec) (L : List (List String))
    (hnd : L.flatten.Nodup)
    (hresp : IdRespectFrom tasks [] L)
    (hall : ∀ t ∈ tasks, t.id ∈ L.flatten) :
    Acyclic tasks := by
  refine ⟨layerIdxOf L, fun t ht d hd => ?_⟩
  obtain ⟨l, hl, hx⟩ := List.mem_flatten.mp (hall t ht)
  obtain ⟨⟨i, hi⟩, hget⟩ := List.mem_iff_get.mp hl
  have hdep := hresp i hi t.id (hget ▸ hx) t ht rfl d hd
  simp only [List.nil_append] at hdep
  rw [layerIdxOf_eq_of_mem t.id L hnd i hi (hget ▸ hx)]
  exact layerIdxOf_lt_of_mem_take d L i hdep

/-- Under acyclicity, layer processing that places every dependency-complete
task places every task. -/
theorem layers_complete (tasks : List TaskSpec) (F : List String)
    (hdepids : ∀ t ∈ tasks, ∀ d ∈ t.dependencies, d ∈ tasks.map TaskSpec.id)
    (hcomp : ∀ t ∈ tasks, (∀ d ∈ t.dependencies, d ∈ F) → t.id ∈ F)
    (hacy : Acyclic tasks) :
    ∀ t ∈ tasks, t.id ∈ F := by
  obtain ⟨rank, hrank⟩ := hacy
  have key : ∀ n, ∀ t ∈ tasks, rank t.id < n → t.id ∈ F := by
    intro n
    induction n with
    | zero =>
      intro t ht h
      exact absurd h (Nat.not_lt_zero _)
    | succ n ihn =>
      intro t ht hlt
      refine hcomp t ht (fun d hd => ?_)
      obtain ⟨u, hu, rfl⟩ := List.mem_map.mp (hdepids t ht d hd)
      have hr : rank u.id < n := by
        have := hrank t ht u.id hd
        omega
      exact ihn u hu hr
  exact fun t ht => key (rank t.id + 1) t ht (Nat.lt_succ_self _)

/-- Resolving id layers through the task map yields layers that place every
task exactly once and respect dependencies. -/
theorem layers_props (tasks : List TaskSpec) (L : List (List String))
    (hids : (tasks.map TaskSpec.id).Nodup)
    (hdepids : ∀ t ∈ tasks, ∀ d ∈ t.dependencies, d ∈ tasks.map TaskSpec.id)
    (hresp : IdRespectFrom tasks [] L)
    (hperm : L.flatten.Perm (tasks.map TaskSpec.id)) :
    LayersPlaceAll tasks
      (L.map (fun layer =>
        layer.filterMap (fun id => SMap.get? (taskMapOf tasks) id))) ∧
    LayersRespectDeps
      (L.map (fun layer =>
        layer.filterMap (fun id => SMap.get? (taskMapOf tasks) id))) := by
  constructor
  · unfold LayersPlaceAll
    rw [filterMap_flatten]
    have h2 := hperm.filterMap (fun id => SMap.get? (taskMapOf tasks) id)
    rw [filterMap_of_map tasks _ (fun t ht => taskMap_get_self tasks hids t ht)]
      at h2
    exact h2
  · intro i hi t htl d hd
    rw [List.length_map] at hi
    have hget : (L.map (fun layer =>
        layer.filterMap (fun id => SMap.get? (taskMapOf tasks) id))).get
          ⟨i, by rw [List.length_map]; exact hi⟩ =
        (L.get ⟨i, hi⟩).filterMap (fun id => SMap.get? (taskMapOf tasks) id) :=
      List.get_map _
    rw [hget] at htl
    obtain ⟨id', hid', hsome⟩ := List.mem_filterMap.mp htl
    obtain ⟨htmem, htid⟩ := taskMap_get_inv tasks hids id' t hsome
    have hdep := hresp i hi id' hid' t htmem htid d hd
    simp only [List.nil_append] at hdep
    have hdid : d ∈ tasks.map TaskSpec.id := hdepids t htmem d hd
    obtain ⟨u, hu, huid⟩ := List.mem_map.mp hdid
    have hu2 : SMap.get? (taskMapOf tasks) d = some u := by
      rw [← huid]
      exact taskMap_get_self tasks hids u hu
    have humem : u ∈ ((L.map (fun layer =>
        layer.filterMap (fun id => SMap.get? (taskMapOf tasks) id))).take
          i).flatten := by
      rw [← List.map_take, filterMap_flatten]
      exact List.mem_filterMap.mpr ⟨d, hdep, hu2⟩
    rw [← huid]
    exact List.mem_map_of_mem TaskSpec.id humem

/-- Full report on `topologicalSort` for a well-formed task list: on acyclic
inputs it succeeds with layers that place every task and respect
dependencies, every success certifies acyclicity, and on cyclic inputs it
throws `CircularDependency`. -/
theorem topoSort_report (tasks : List TaskSpec) (hwf : WellFormedTasks tasks) :
    (Acyclic tasks →
      ∃ TL, topologicalSort tasks = .ok TL ∧ LayersPlaceAll tasks TL ∧
        LayersRespectDeps TL) ∧
    (∀ TL, topologicalSort tasks = .ok TL →
      Acyclic tasks ∧ LayersPlaceAll tasks TL ∧ LayersRespectDeps TL) ∧
    (¬ Acyclic tasks → topologicalSort tasks = .error .circularDependency) := by
  obtain ⟨hids, hdnd, hdepids⟩ := hwf
  have htm := taskMapOf_eq tasks hids
  have htmk : (taskMapOf tasks).map Prod.fst = tasks.map TaskSpec.id := by
    rw [htm, List.map_map]
    rfl
  have hadj0 := adjListEmpty_eq tasks hids
  have hadj0k : (adjListEmpty tasks).map Prod.fst = tasks.map TaskSpec.id := by
    rw [hadj0, List.map_map]
    rfl
  have hdeg0 := inDegreeZero_eq tasks hids
  have hdeg0k : (inDegreeZero tasks).map Prod.fst = tasks.map TaskSpec.id := by
    rw [hdeg0, List.map_map]
    rfl
  have hhas : ∀ t ∈ tasks, ∀ d ∈ t.dependencies,
      SMap.has (taskMapOf tasks) d = true := by
    intro t ht d hd
    exact SMap.get?_isSome_of_mem _ _ (htmk ▸ hdepids t ht d hd)
  have hE1 : ∀ e ∈ taskEdges tasks,
      e.1 ∈ (adjListEmpty tasks).map Prod.fst := by
    intro e he
    obtain ⟨t, ht, _, hdep⟩ := mem_taskEdges tasks e he
    rw [hadj0k]
    exact hdepids t ht e.1 hdep
  have hE2 : ∀ e ∈ taskEdges tasks,
      e.2 ∈ (inDegreeZero tasks).map Prod.fst := by
    intro e he
    obtain ⟨t, ht, hid, _⟩ := mem_taskEdges tasks e he
    rw [hdeg0k, hid]
    exact List.mem_map_of_mem TaskSpec.id ht
  obtain ⟨hAk, hDk, hAp, hDp⟩ := applyEdges_spec (taskEdges tasks)
    (adjListEmpty tasks) (inDegreeZero tasks) hE1 hE2
  rcases hAD : applyEdges (taskEdges tasks)
    (adjListEmpty tasks, inDegreeZero tasks) with ⟨adjF, degF⟩
  rw [hAD] at hAk hDk hAp hDp
  simp only at hAk hDk hAp hDp
  have hbuild := buildGraph_eq (taskMapOf tasks) tasks (adjListEmpty tasks)
    (inDegreeZero tasks) hhas
  rw [hAD] at hbuild
  have hadjF : ∀ id ∈ tasks.map TaskSpec.id,
      SMap.get? adjF id = some (succsOf tasks id) := by
    intro id hid
    obtain ⟨t, ht, rfl⟩ := List.mem_map.mp hid
    have hbase : SMap.get? (adjListEmpty tasks) t.id =
        some ([] : List String) := by
      rw [hadj0, SMap.get?_taskShaped (fun _ => ([] : List String)) tasks t.id,
        find?_id_of_nodup tasks hids t ht]
      rfl
    rw [hAp t.id, hbase]
    simp only [Option.map_some', List.nil_append]
    rw [taskEdges_filter_fst t.id tasks hdnd]
  have hdegFk : degF.map Prod.fst = tasks.map TaskSpec.id := by
    rw [hDk, hdeg0k]
  have hdegF : ∀ t ∈ tasks,
      SMap.get? degF t.id = some ((remDeps [] t : Nat) : Int) := by
    intro t ht
    have hbase : SMap.get? (inDegreeZero tasks) t.id = some (0 : Int) := by
      rw [hdeg0, SMap.get?_taskShaped (fun _ => (0 : Int)) tasks t.id,
        find?_id_of_nodup tasks hids t ht]
      rfl
    rw [hDp t.id, hbase]
    simp only [Option.map_some']
    rw [taskEdges_filter_snd t tasks hids ht, List.length_map, remDeps_nil]
    norm_num
  have hq0sl := initQueue_sublist degF
  have hkeysnd : (degF.map Prod.fst).Nodup := by
    rw [hdegFk]
    exact hids
  have hq0nd : (initQueue degF).Nodup := hkeysnd.sublist hq0sl
  have hq0sub : ∀ x ∈ initQueue degF, x ∈ tasks.map TaskSpec.id := by
    intro x hx
    rw [← hdegFk]
    exact hq0sl.subset hx
  have hq0mem : ∀ t ∈ tasks,
      (t.id ∈ initQueue degF ↔ t.dependencies = []) := by
    intro t ht
    rw [mem_initQueue degF t.id hkeysnd, hdegF t ht]
    constructor
    · intro h
      have h2 := Option.some.inj h
      have hlen : t.dependencies.length = 0 := by
        rw [← remDeps_nil t]
        exact_mod_cast h2
      exact List.length_eq_zero.mp hlen
    · intro h
      have hz : remDeps [] t = 0 := by rw [remDeps_nil, h]; rfl
      rw [hz]
      norm_num
  obtain ⟨m1, m2, m3, m4⟩ := kahn_master tasks adjF hids hdnd hadjF
    tasks.length [] (initQueue degF) degF
    (by simp)
    hq0nd
    hq0sub
    hdegFk
    hdegF
    (fun t ht hin d hd => by
      have hnil : t.dependencies = [] := (hq0mem t ht).mp hin
      rw [hnil] at hd
      simp at hd)
    (fun t ht hall => by
      have hnil : t.dependencies = [] := by
        cases hdep : t.dependencies with
        | nil => rfl
        | cons a l =>
          have := hall a (by rw [hdep]; exact List.mem_cons_self _ _)
          simp at this
      exact (hq0mem t ht).mpr hnil)
  set L := kahnLayers adjF tasks.length degF (initQueue degF) with hL
  have htopo : topologicalSort tasks =
      if (L.map List.length).sum = tasks.length then
        .ok (L.map (fun layer =>
          layer.filterMap (fun id => SMap.get? (taskMapOf tasks) id)))
      else .error .circularDependency := by
    unfold topologicalSort
    simp only [hbuild, except_bind_ok]
  have hacy_sum : Acyclic tasks → (L.map List.length).sum = tasks.length := by
    intro hacy
    have hall : ∀ t ∈ tasks, t.id ∈ L.flatten := by
      refine layers_complete tasks L.flatten hdepids ?_ hacy
      intro t ht hdall
      have h4 := m4 t ht (fun d hd => by simpa using hdall d hd)
      simpa using h4
    have hsub2 : ∀ x ∈ tasks.map TaskSpec.id, x ∈ L.flatten := by
      intro x hx
      obtain ⟨t, ht, rfl⟩ := List.mem_map.mp hx
      exact hall t ht
    have h1 : L.flatten.Nodup := by simpa using m1
    have hperm : L.flatten.Perm (tasks.map TaskSpec.id) :=
      (List.subperm_of_subset h1 m2).antisymm
        (List.subperm_of_subset hids hsub2)
    have hlen := hperm.length_eq
    rw [List.length_map] at hlen
    rw [← List.length_flatten]
    exact hlen
  by_cases hsum : (L.map List.length).sum = tasks.length
  · have h1 : L.flatten.Nodup := by simpa using m1
    have hlen : L.flatten.length = tasks.length := by
      rw [List.length_flatten, hsum]
    have hperm : L.flatten.Perm (tasks.map TaskSpec.id) :=
      (List.subperm_of_subset h1 m2).perm_of_length_le
        (by rw [List.length_map, hlen])
    obtain ⟨hplace, hrespect⟩ := layers_props tasks L hids hdepids m3 hperm
    have hacy : Acyclic tasks := by
      refine layers_acyclic tasks L h1 m3 ?_
      intro t ht
      exact hperm.mem_iff.mpr (List.mem_map_of_mem TaskSpec.id ht)
    refine ⟨fun _ => ⟨_, by rw [htopo, if_pos hsum], hplace, hrespect⟩, ?_,
      fun hnac => absurd hacy hnac⟩
    intro TL' hok
    rw [htopo, if_pos hsum] at hok
    have hTLeq := (Except.ok.inj hok).symm
    subst hTLeq
    exact ⟨hacy, hplace, hrespect⟩
  · have hnacy : ¬ Acyclic tasks := fun h => hsum (hacy_sum h)
    refine ⟨fun h => absurd h hnacy, ?_, fun _ => by rw [htopo, if_neg hsum]⟩
    intro TL' hok
    rw [htopo, if_neg hsum] at hok
    exact absurd hok (by simp)

/-- C6: for a well-formed task list, `topologicalSort` places all tasks into
layers with every dependency of a task in layer `i` located in a strictly
earlier layer if and only if the dependency graph is acyclic; on a cyclic
graph it fails with `CircularDependency` carrying exit code 2, and
`runParallel` propagates that failure for every runner, i.e. before any task
is run. -/
theorem topologicalSort_layers_iff_acyclic (tasks : List TaskSpec)
    (hwf : WellFormedTasks tasks) :
    ((∃ layers, topologicalSort tasks = .ok layers ∧
        LayersPlaceAll tasks layers ∧ LayersRespectDeps layers) ↔
      Acyclic tasks) ∧
    (¬ Acyclic tasks →
      topologicalSort tasks = .error .circularDependency ∧
      TopoError.circularDependency.exitCode = 2 ∧
      ∀ exec, runParallel tasks exec = .error .circularDependency) := by
  obtain ⟨h1, h2, h3⟩ := topoSort_report tasks hwf
  constructor
  · constructor
    · rintro ⟨layers, hok, _, _⟩
      exact (h2 layers hok).1
    · intro hacy
      exact h1 hacy
  · intro hnacy
    refine ⟨h3 hnacy, rfl, fun exec => ?_⟩
    unfold runParallel
    rw [h3 hnacy]
    rfl

/-- C6 witness: the well-formedness hypothesis is discharged at the two-task
chain fixture. -/
theorem topologicalSort_layers_iff_acyclic_witness :
    WellFormedTasks tasksChainFix ∧
    (((∃ layers, topologicalSort tasksChainFix = .ok layers ∧
        LayersPlaceAll tasksChainFix layers ∧ LayersRespectDeps layers) ↔
      Acyclic tasksChainFix) ∧
    (¬ Acyclic tasksChainFix →
      topologicalSort tasksChainFix = .error .circularDependency ∧
      TopoError.circularDependency.exitCode = 2 ∧
      ∀ exec, runParallel tasksChainFix exec = .error .circularDependency)) :=
  ⟨by decide, topologicalSort_layers_iff_acyclic tasksChainFix (by decide)⟩

theorem contains_iff (l : List String) (a : String) :
    l.contains a = true ↔ a ∈ l := List.elem_iff

theorem SMap.mem_keys_set (m : SMap α) (k : String) (v : α) (k' : String)
    (h : k' ∈ (SMap.set m k v).map Prod.fst) :
    k' ∈ m.map Prod.fst ∨ k' = k := by
  induction m with
  | nil =>
    simp [SMap.set] at h
    exact Or.inr h
  | cons e rest ih =>
    by_cases he : e.1 = k
    · rw [SMap.set, if_pos he] at h
      simp only [List.map_cons, List.mem_cons] at h ⊢
      rcases h with h | h
      · exact Or.inr h
      · exact Or.inl (Or.inr h)
    · rw [SMap.set, if_neg he] at h
      simp only [List.map_cons, List.mem_cons] at h ⊢
      rcases h with h | h
      · exact Or.inl (Or.inl h)
      · rcases ih h with h2 | h2
        · exact Or.inl (Or.inr h2)
        · exact Or.inr h2

theorem SMap.has_iff_mem (m : SMap α) (k : String) :
    SMap.has m k = true ↔ k ∈ m.map Prod.fst := by
  constructor
  · intro h
    obtain ⟨v, hv⟩ := Option.isSome_iff_exists.mp h
    obtain hm := SMap.mem_of_get?_eq_some m k v hv
    exact List.mem_map_of_mem Prod.fst hm
  · intro h
    exact SMap.get?_isSome_of_mem m k h

/-- Recording results under keys not looked up leaves a lookup unchanged. -/
theorem get?_foldl_set_not_mem :
    ∀ (rs : List TaskResult) (m : SMap TaskResult) (k : String),
      ¬ k ∈ rs.map TaskResult.taskId →
      SMap.get? (rs.foldl (fun m r => SMap.set m r.taskId r) m) k =
        SMap.get? m k := by
  intro rs
  induction rs with
  | nil => intro m k _; rfl
  | cons r rest ih =>
    intro m k hk
    simp only [List.map_cons, List.mem_cons] at hk
    push_neg at hk
    rw [List.foldl_cons, ih _ k hk.2, SMap.get?_set_ne _ _ _ _ hk.1]

/-- Recording results with distinct task ids makes each retrievable. -/
theorem get?_foldl_set_found :
    ∀ (rs : List TaskResult), (rs.map TaskResult.taskId).Nodup →
      ∀ (m : SMap TaskResult), ∀ r ∈ rs,
      SMap.get? (rs.foldl (fun m r => SMap.set m r.taskId r) m) r.taskId =
        some r := by
  intro rs
  induction rs with
  | nil =>
    intro _ m r hr
    simp at hr
  | cons r0 rest ih =>
    intro hnd m r hr
    simp only [List.map_cons, List.nodup_cons] at hnd
    rw [List.foldl_cons]
    rcases List.mem_cons.mp hr with heq | hr'
    · subst heq
      rw [get?_foldl_set_not_mem rest _ r.taskId hnd.1, SMap.get?_set_self]
    · exact ih hnd.2 _ r hr'

theorem mem_keys_foldl_set :
    ∀ (rs : List TaskResult) (m : SMap TaskResult) (k : String),
      k ∈ (rs.foldl (fun m r => SMap.set m r.taskId r) m).map Prod.fst →
      k ∈ m.map Prod.fst ∨ k ∈ rs.map TaskResult.taskId := by
  intro rs
  induction rs with
  | nil =>
    intro m k h
    exact Or.inl h
  | cons r rest ih =>
    intro m k h
    rw [List.foldl_cons] at h
    rcases ih _ k h with h2 | h2
    · rcases SMap.mem_keys_set m r.taskId r k h2 with h3 | h3
      · exact Or.inl h3
      · exact Or.inr (by simp [h3])
    · exact Or.inr (List.mem_cons_of_mem _ h2)

/-- The skipped-set test of the runnable filter ignores additions that are
not dependencies of the tested task. -/
theorem depBlocked_append (completed : SMap TaskResult)
    (skipped extra deps : List String)
    (h : ∀ d ∈ deps, ¬ d ∈ extra) :
    depBlocked completed (skipped ++ extra) deps =
      depBlocked completed skipped deps := by
  unfold depBlocked
  induction deps with
  | nil => rfl
  | cons d rest ih =>
    simp only [List.any_cons]
    rw [ih (fun x hx => h x (List.mem_cons_of_mem _ hx))]
    congr 1
    have hd := h d (List.mem_cons_self _ _)
    by_cases hs : d ∈ skipped
    · have h1 : skipped.contains d = true := (contains_iff _ _).mpr hs
      have h2 : (skipped ++ extra).contains d = true :=
        (contains_iff _ _).mpr (List.mem_append_left _ hs)
      rw [h1, h2]
    · have h1 : ¬ skipped.contains d = true :=
        fun hc => hs ((contains_iff _ _).mp hc)
      have h2 : ¬ (skipped ++ extra).contains d = true := by
        intro hc
        rcases List.mem_append.mp ((contains_iff _ _).mp hc) with hx | hx
        · exact hs hx
        · exact hd hx
      rw [Bool.eq_false_iff.mpr h1, Bool.eq_false_iff.mpr h2]

/-- The post-layer fold appends one synthesized result per task passing the
skip test, in layer order. -/
theorem foldl_skip_append (skipped1 : List String)
    (completed1 : SMap TaskResult) :
    ∀ (layer : List TaskSpec) (acc : List TaskResult),
      layer.foldl
        (fun acc t =>
          if skipped1.contains t.id ∧ ¬ (SMap.has completed1 t.id = true) then
            acc ++ [skippedResult t.id]
          else acc) acc =
      acc ++ (layer.filter (fun t => decide (skipped1.contains t.id ∧
          ¬ (SMap.has completed1 t.id = true)))).map
        (fun t => skippedResult t.id) := by
  intro layer
  induction layer with
  | nil =>
    intro acc
    simp
  | cons t rest ih =>
    intro acc
    rw [List.foldl_cons, List.filter_cons]
    by_cases hc : skipped1.contains t.id ∧ ¬ (SMap.has completed1 t.id = true)
    · rw [if_pos hc, if_pos (by simpa using hc), ih, List.map_cons]
      simp
    · rw [if_neg hc, if_neg (by simpa using hc), ih]

theorem respectFrom_cons (P : List String) (L : List TaskSpec)
    (rest : List (List TaskSpec)) :
    RespectFrom P (L :: rest) ↔
      ((∀ t ∈ L, ∀ d ∈ t.dependencies, d ∈ P) ∧
        RespectFrom (P ++ L.map TaskSpec.id) rest) := by
  constructor
  · intro h
    constructor
    · intro t ht d hd
      have h0 := h 0 (by simp) t ht d hd
      simpa using h0
    · intro i hi t ht d hd
      have hi' : i + 1 < (L :: rest).length := by
        simpa using Nat.succ_lt_succ hi
      have hget : (L :: rest).get ⟨i + 1, hi'⟩ = rest.get ⟨i, hi⟩ := rfl
      have h1 := h (i + 1) hi' t (hget ▸ ht) d hd
      rw [List.take_succ_cons, List.flatten_cons, List.map_append,
        ← List.append_assoc] at h1
      exact h1
  · rintro ⟨h0, hrest⟩ i hi t ht d hd
    cases i with
    | zero =>
      simpa using h0 t ht d hd
    | succ i =>
      have hi2 : i < rest.length := by simpa using Nat.lt_of_succ_lt_succ hi
      have hget : (L :: rest).get ⟨i + 1, hi⟩ = rest.get ⟨i, hi2⟩ := rfl
      have h1 := hrest i hi2 t (hget ▸ ht) d hd
      rw [List.take_succ_cons, List.flatten_cons, List.map_append,
        ← List.append_assoc]
      exact h1

theorem layersRespectDeps_respectFrom (layers : List (List TaskSpec)) :
    LayersRespectDeps layers ↔ RespectFrom [] layers := by
  constructor
  · intro h i hi t ht d hd
    simpa using h i hi t ht d hd
  · intro h i hi t ht d hd
    simpa using h i hi t ht d hd

/-- Closed form of the runnable filter on a fresh layer: it partitions the
layer by the dependency test against the incoming state and appends the
blocked ids, in order, to the skipped set. -/
theorem filterRunnable_spec (completed : SMap TaskResult) :
    ∀ (layer : List TaskSpec) (skipped : List String),
      (∀ t ∈ layer, ∀ d ∈ t.dependencies, ¬ d ∈ layer.map TaskSpec.id) →
      (layer.map TaskSpec.id).Nodup →
      (∀ t ∈ layer, ¬ t.id ∈ skipped) →
      filterRunnable completed skipped layer =
        (layer.filter
          (fun t => ¬ depBlocked completed skipped t.dependencies),
         skipped ++ (layer.filter
          (fun t => depBlocked completed skipped t.dependencies)).map
            TaskSpec.id) := by
  intro layer
  induction layer with
  | nil =>
    intro skipped _ _ _
    simp [filterRunnable]
  | cons t rest ih =>
    intro skipped hdd hnd hsk
    simp only [List.map_cons, List.nodup_cons] at hnd
    have hdd' : ∀ u ∈ rest, ∀ d ∈ u.dependencies, ¬ d ∈ rest.map TaskSpec.id :=
      fun u hu d hd hin => hdd u (List.mem_cons_of_mem _ hu) d hd
        (by simp [hin])
    have hstab : ∀ u ∈ rest,
        depBlocked completed (skipped ++ [t.id]) u.dependencies =
          depBlocked completed skipped u.dependencies := by
      intro u hu
      refine depBlocked_append completed skipped [t.id] u.dependencies ?_
      intro d hd hdt
      simp only [List.mem_singleton] at hdt
      exact hdd u (List.mem_cons_of_mem _ hu) d hd (by simp [hdt])
    by_cases hb : depBlocked completed skipped t.dependencies = true
    · have hcont : ¬ skipped.contains t.id = true :=
        fun hc => hsk t (List.mem_cons_self _ _) ((contains_iff _ _).mp hc)
      have hsk' : ∀ u ∈ rest, ¬ u.id ∈ skipped ++ [t.id] := by
        intro u hu hin
        rcases List.mem_append.mp hin with h | h
        · exact hsk u (List.mem_cons_of_mem _ hu) h
        · simp only [List.mem_singleton] at h
          exact hnd.1 (h ▸ List.mem_map_of_mem TaskSpec.id hu)
      have hfilt1 : rest.filter (fun u =>
          ¬ depBlocked completed (skipped ++ [t.id]) u.dependencies = true) =
          rest.filter (fun u =>
            ¬ depBlocked completed skipped u.dependencies = true) :=
        List.filter_congr (fun u hu => by rw [hstab u hu])
      have hfilt2 : rest.filter (fun u =>
          depBlocked completed (skipped ++ [t.id]) u.dependencies) =
          rest.filter (fun u =>
            depBlocked completed skipped u.dependencies) :=
        List.filter_congr (fun u hu => by rw [hstab u hu])
      rw [filterRunnable, if_pos hb, if_neg hcont]
      simp only [ih (skipped ++ [t.id]) hdd' hnd.2 hsk', hfilt1, hfilt2]
      rw [List.filter_cons, List.filter_cons]
      rw [if_neg (by simpa using hb), if_pos (by simpa using hb)]
      simp
    · rw [filterRunnable, if_neg hb]
      simp only [ih skipped hdd' hnd.2
        (fun u hu => hsk u (List.mem_cons_of_mem _ hu))]
      rw [List.filter_cons, List.filter_cons]
      rw [if_pos (by simpa using hb), if_neg (by simpa using hb)]

theorem map_exec_ids (exec : TaskSpec → TaskResult) :
    ∀ (l : List TaskSpec), (∀ t ∈ l, (exec t).taskId = t.id) →
      (l.map exec).map TaskResult.taskId = l.map TaskSpec.id := by
  intro l
  induction l with
  | nil => intro _; rfl
  | cons t rest ih =>
    intro h
    simp only [List.map_cons]
    rw [h t (List.mem_cons_self _ _),
      ih (fun u hu => h u (List.mem_cons_of_mem _ hu))]

/-- One scheduler layer preserves the invariant: the processed set grows by
the layer, blocked tasks are skipped with the synthesized result and no
execution, unblocked tasks are executed with their runner result recorded. -/
theorem processLayer_inv (exec : TaskSpec → TaskResult)
    (Q L : List TaskSpec) (s : SchedState)
    (hinv : SchedInv exec Q s)
    (hnd : ((Q ++ L).map TaskSpec.id).Nodup)
    (hexec : ∀ t ∈ Q ++ L, (exec t).taskId = t.id)
    (hLdeps : ∀ t ∈ L, ∀ d ∈ t.dependencies, d ∈ Q.map TaskSpec.id) :
    SchedInv exec (Q ++ L) (processLayer exec s L) := by
  obtain ⟨i1, i2, i3, i4, i5, i6, i7⟩ := hinv
  rw [List.map_append, List.nodup_append] at hnd
  obtain ⟨hQnd, hLnd, hdisj⟩ := hnd
  have hLfresh : ∀ t ∈ L, ¬ t.id ∈ Q.map TaskSpec.id :=
    fun t ht h => hdisj h (List.mem_map_of_mem TaskSpec.id ht)
  have hdd : ∀ t ∈ L, ∀ d ∈ t.dependencies, ¬ d ∈ L.map TaskSpec.id :=
    fun t ht d hd hdL => hdisj (hLdeps t ht d hd) hdL
  have hsk0 : ∀ t ∈ L, ¬ t.id ∈ s.skipped :=
    fun t ht h => hLfresh t ht (i3 t.id h)
  have hfr := filterRunnable_spec s.completed L s.skipped hdd hLnd hsk0
  set runnable := L.filter
    (fun t => ¬ depBlocked s.completed s.skipped t.dependencies) with hrunnable
  set blocked := L.filter
    (fun t => depBlocked s.completed s.skipped t.dependencies) with hblocked
  have hrun_mem : ∀ u, u ∈ runnable ↔
      (u ∈ L ∧ ¬ depBlocked s.completed s.skipped u.dependencies = true) := by
    intro u
    rw [hrunnable]
    simp [List.mem_filter]
  have hblk_mem : ∀ u, u ∈ blocked ↔
      (u ∈ L ∧ depBlocked s.completed s.skipped u.dependencies = true) := by
    intro u
    rw [hblocked]
    simp [List.mem_filter]
  have hrunnable_sub : ∀ u ∈ runnable, u ∈ L :=
    fun u hu => ((hrun_mem u).mp hu).1
  have hblocked_sub : ∀ u ∈ blocked, u ∈ L :=
    fun u hu => ((hblk_mem u).mp hu).1
  have hrunsub : runnable.Sublist L := by
    rw [hrunnable]
    exact List.filter_sublist _
  have hrun_ids_nd : (runnable.map TaskSpec.id).Nodup :=
    hLnd.sublist (List.Sublist.map TaskSpec.id hrunsub)
  set lres := runnable.map exec with hlres
  have hlres_ids : lres.map TaskResult.taskId = runnable.map TaskSpec.id := by
    rw [hlres]
    exact map_exec_ids exec runnable
      (fun u hu => hexec u (List.mem_append_right _ (hrunnable_sub u hu)))
  set completed1 := lres.foldl (fun m r => SMap.set m r.taskId r) s.completed
    with hc1
  set skipped1 := s.skipped ++ blocked.map TaskSpec.id with hs1
  have hkeys1 : ∀ k, k ∈ completed1.map Prod.fst →
      k ∈ s.completed.map Prod.fst ∨ k ∈ runnable.map TaskSpec.id := by
    intro k hk
    rw [hc1] at hk
    rcases mem_keys_foldl_set lres s.completed k hk with h | h
    · exact Or.inl h
    · rw [hlres_ids] at h
      exact Or.inr h
  have hcond : L.filter (fun t => decide (skipped1.contains t.id ∧
      ¬ (SMap.has completed1 t.id = true))) = blocked := by
    rw [hblocked]
    refine List.filter_congr (fun t ht => ?_)
    by_cases hb : depBlocked s.completed s.skipped t.dependencies = true
    · have htblk : t ∈ blocked := (hblk_mem t).mpr ⟨ht, hb⟩
      have hmemskip : t.id ∈ skipped1 := by
        rw [hs1]
        exact List.mem_append_right _ (List.mem_map_of_mem TaskSpec.id htblk)
      have hnothas : ¬ SMap.has completed1 t.id = true := by
        intro hhas
        rcases hkeys1 t.id ((SMap.has_iff_mem _ _).mp hhas) with h | h
        · exact hLfresh t ht (i4 t.id h)
        · obtain ⟨u, hu, huid⟩ := List.mem_map.mp h
          have heq := id_inj_of_nodup L hLnd u t (hrunnable_sub u hu) ht huid
          subst heq
          exact ((hrun_mem u).mp hu).2 hb
      rw [hb]
      simp [hmemskip, hnothas]
    · have hnotmem : ¬ t.id ∈ skipped1 := by
        intro hc
        rw [hs1] at hc
        rcases List.mem_append.mp hc with h | h
        · exact hsk0 t ht h
        · obtain ⟨u, hu, huid⟩ := List.mem_map.mp h
          have heq := id_inj_of_nodup L hLnd u t (hblocked_sub u hu) ht huid
          subst heq
          exact hb ((hblk_mem u).mp hu).2
      have hbf : depBlocked s.completed s.skipped t.dependencies = false :=
        Bool.eq_false_iff.mpr hb
      rw [hbf]
      simp [hnotmem]
  have hP : processLayer exec s L =
      { completed := completed1
        skipped := skipped1
        results := (s.results ++ lres) ++
          blocked.map (fun t => skippedResult t.id)
        executed := s.executed ++ runnable.map (fun t => t.id) } := by
    simp only [processLayer, hfr, foldl_skip_append, hcond]
  rw [hP]
  unfold SchedInv
  dsimp only
  have hmapQL : (Q ++ L).map TaskSpec.id = Q.map TaskSpec.id ++
      L.map TaskSpec.id := List.map_append _ _ _
  have hskipmap_ids : (blocked.map (fun t => skippedResult t.id)).map
      TaskResult.taskId = blocked.map TaskSpec.id := by
    rw [List.map_map]
    rfl
  have hpartition : (runnable.map TaskSpec.id ++
      blocked.map TaskSpec.id).Perm (L.map TaskSpec.id) := by
    have hfb : L.filter (fun x =>
        ! (decide (¬ depBlocked s.completed s.skipped x.dependencies = true)))
        = blocked := by
      rw [hblocked]
      refine List.filter_congr (fun u _ => ?_)
      cases hdb : depBlocked s.completed s.skipped u.dependencies <;>
        simp [hdb]
    have hperm := List.filter_append_perm
      (fun t => decide (¬ depBlocked s.completed s.skipped t.dependencies
        = true)) L
    rw [hfb] at hperm
    have := hperm.map TaskSpec.id
    rw [List.map_append] at this
    exact this
  refine ⟨?_, ?_, ?_, ?_, ?_, ?_, ?_⟩
  · -- result ids cover Q ++ L
    rw [List.map_append, List.map_append, hlres_ids, hskipmap_ids, hmapQL,
      List.append_assoc]
    exact i1.append hpartition
  · -- dichotomy
    intro q hq
    rcases List.mem_append.mp hq with hqQ | hqL
    · rcases i2 q hqQ with ⟨ha, hb2, hc, hd2⟩ | ⟨ha, hb2, hc, hd2⟩
      · refine Or.inl ⟨?_, ?_, ?_, ?_⟩
        · rw [hs1]
          exact List.mem_append_left _ ha
        · exact List.mem_append_left _ (List.mem_append_left _ hb2)
        · intro h
          rcases List.mem_append.mp h with h | h
          · exact hc h
          · obtain ⟨u, hu, huid⟩ := List.mem_map.mp h
            exact hdisj (List.mem_map_of_mem TaskSpec.id hqQ)
              (huid ▸ List.mem_map_of_mem TaskSpec.id (hrunnable_sub u hu))
        · intro h
          rcases hkeys1 q.id h with h2 | h2
          · exact hd2 h2
          · obtain ⟨u, hu, huid⟩ := List.mem_map.mp h2
            exact hdisj (List.mem_map_of_mem TaskSpec.id hqQ)
              (huid ▸ List.mem_map_of_mem TaskSpec.id (hrunnable_sub u hu))
      · refine Or.inr ⟨?_, ?_, ?_, ?_⟩
        · intro h
          rw [hs1] at h
          rcases List.mem_append.mp h with h | h
          · exact ha h
          · obtain ⟨u, hu, huid⟩ := List.mem_map.mp h
            exact hdisj (List.mem_map_of_mem TaskSpec.id hqQ)
              (huid ▸ List.mem_map_of_mem TaskSpec.id (hblocked_sub u hu))
        · exact List.mem_append_left _ (List.mem_append_left _ hb2)
        · exact List.mem_append_left _ hc
        · have hfresh2 : ¬ q.id ∈ lres.map TaskResult.taskId := by
            rw [hlres_ids]
            intro h
            obtain ⟨u, hu, huid⟩ := List.mem_map.mp h
            exact hdisj (List.mem_map_of_mem TaskSpec.id hqQ)
              (huid ▸ List.mem_map_of_mem TaskSpec.id (hrunnable_sub u hu))
          rw [hc1, get?_foldl_set_not_mem lres s.completed q.id hfresh2]
          exact hd2
    · by_cases hqb : depBlocked s.completed s.skipped q.dependencies = true
      · have hqblk : q ∈ blocked := (hblk_mem q).mpr ⟨hqL, hqb⟩
        refine Or.inl ⟨?_, ?_, ?_, ?_⟩
        · rw [hs1]
          exact List.mem_append_right _
            (List.mem_map_of_mem TaskSpec.id hqblk)
        · exact List.mem_append_right _
            (List.mem_map_of_mem (fun t => skippedResult t.id) hqblk)
        · intro h
          rcases List.mem_append.mp h with h | h
          · exact hLfresh q hqL (i5 q.id h)
          · obtain ⟨u, hu, huid⟩ := List.mem_map.mp h
            have heq := id_inj_of_nodup L hLnd u q (hrunnable_sub u hu) hqL
              huid
            subst heq
            exact ((hrun_mem u).mp hu).2 hqb
        · intro h
          rcases hkeys1 q.id h with h2 | h2
          · exact hLfresh q hqL (i4 q.id h2)
          · obtain ⟨u, hu, huid⟩ := List.mem_map.mp h2
            have heq := id_inj_of_nodup L hLnd u q (hrunnable_sub u hu) hqL
              huid
            subst heq
            exact ((hrun_mem u).mp hu).2 hqb
      · have hqrun : q ∈ runnable := (hrun_mem q).mpr ⟨hqL, hqb⟩
        refine Or.inr ⟨?_, ?_, ?_, ?_⟩
        · intro h
          rw [hs1] at h
          rcases List.mem_append.mp h with h | h
          · exact hsk0 q hqL h
          · obtain ⟨u, hu, huid⟩ := List.mem_map.mp h
            have heq := id_inj_of_nodup L hLnd u q (hblocked_sub u hu) hqL
              huid
            subst heq
            exact hqb ((hblk_mem u).mp hu).2
        · refine List.mem_append_left _ (List.mem_append_right _ ?_)
          rw [hlres]
          exact List.mem_map_of_mem exec hqrun
        · exact List.mem_append_right _
            (List.mem_map_of_mem (fun t => t.id) hqrun)
        · have hndlres : (lres.map TaskResult.taskId).Nodup := by
            rw [hlres_ids]
            exact hrun_ids_nd
          have hfound := get?_foldl_set_found lres hndlres s.completed
            (exec q) (by rw [hlres]; exact List.mem_map_of_mem exec hqrun)
          have hexq : (exec q).taskId = q.id :=
            hexec q (List.mem_append_right _ hqL)
          rw [hc1, ← hexq]
          exact hfound
  · -- skipped inside Q ++ L
    intro x hx
    rw [hs1] at hx
    rw [hmapQL]
    rcases List.mem_append.mp hx with h | h
    · exact List.mem_append_left _ (i3 x h)
    · obtain ⟨u, hu, huid⟩ := List.mem_map.mp h
      exact List.mem_append_right _
        (huid ▸ List.mem_map_of_mem TaskSpec.id (hblocked_sub u hu))
  · -- completed keys inside Q ++ L
    intro x hx
    rw [hmapQL]
    rcases hkeys1 x hx with h | h
    · exact List.mem_append_left _ (i4 x h)
    · obtain ⟨u, hu, huid⟩ := List.mem_map.mp h
      exact List.mem_append_right _
        (huid ▸ List.mem_map_of_mem TaskSpec.id (hrunnable_sub u hu))
  · -- executed inside Q ++ L
    intro x hx
    rw [hmapQL]
    rcases List.mem_append.mp hx with h | h
    · exact List.mem_append_left _ (i5 x h)
    · obtain ⟨u, hu, huid⟩ := List.mem_map.mp h
      exact List.mem_append_right _
        (huid ▸ List.mem_map_of_mem TaskSpec.id (hrunnable_sub u hu))
  · -- dependencies inside Q ++ L
    intro q hq d hd
    rw [hmapQL]
    rcases List.mem_append.mp hq with hqQ | hqL
    · exact List.mem_append_left _ (i6 q hqQ d hd)
    · exact List.mem_append_left _ (hLdeps q hqL d hd)
  · -- failing dependency result forces skip
    intro q hq d hd r hr hrid hrfail
    have hdQ : d ∈ Q.map TaskSpec.id := by
      rcases List.mem_append.mp hq with hqQ | hqL
      · exact i6 q hqQ d hd
      · exact hLdeps q hqL d hd
    have hrS : r ∈ s.results := by
      rcases List.mem_append.mp hr with h1 | hB
      · rcases List.mem_append.mp h1 with h | hE
        · exact h
        · exfalso
          obtain ⟨u, hu, huid⟩ := List.mem_map.mp (by rw [hlres] at hE; exact hE)
          have hexu : (exec u).taskId = u.id :=
            hexec u (List.mem_append_right _ (hrunnable_sub u hu))
          have : d ∈ L.map TaskSpec.id := by
            rw [← hrid, ← huid, hexu]
            exact List.mem_map_of_mem TaskSpec.id (hrunnable_sub u hu)
          exact hdisj hdQ this
      · exfalso
        obtain ⟨w, hw, hwid⟩ := List.mem_map.mp hB
        have : d ∈ L.map TaskSpec.id := by
          rw [← hrid, ← hwid]
          exact List.mem_map_of_mem TaskSpec.id (hblocked_sub w hw)
        exact hdisj hdQ this
    rcases List.mem_append.mp hq with hqQ | hqL
    · rw [hs1]
      exact List.mem_append_left _ (i7 q hqQ d hd r hrS hrid hrfail)
    · obtain ⟨qd, hqd, hqdid⟩ := List.mem_map.mp hdQ
      have hblockedq : depBlocked s.completed s.skipped q.dependencies
          = true := by
        rcases i2 qd hqd with ⟨ha, _, _, _⟩ | ⟨_, hb2, _, hd2⟩
        · unfold depBlocked
          refine List.any_eq_true.mpr ⟨d, hd, ?_⟩
          have hmd : d ∈ s.skipped := hqdid ▸ ha
          simp [hmd]
        · have hexqd : (exec qd).taskId = qd.id :=
            hexec qd (List.mem_append_left _ hqd)
          have hndres : (s.results.map TaskResult.taskId).Nodup :=
            i1.nodup_iff.mpr (hQnd)
          have hreq : r = exec qd :=
            List.inj_on_of_nodup_map hndres hrS hb2
              (by rw [hrid, hexqd, hqdid])
          have hfailqd : ¬ (exec qd).exitCode = 0 := hreq ▸ hrfail
          unfold depBlocked
          refine List.any_eq_true.mpr ⟨d, hd, ?_⟩
          have hget : SMap.get? s.completed d = some (exec qd) := by
            rw [← hqdid]
            exact hd2
          have hbne : ((exec qd).exitCode != 0) = true :=
            bne_iff_ne.mpr hfailqd
          simp [hget, hbne]
      have hqblk : q ∈ blocked := (hblk_mem q).mpr ⟨hqL, hblockedq⟩
      rw [hs1]
      exact List.mem_append_right _ (List.mem_map_of_mem TaskSpec.id hqblk)

theorem except_bind_error {ε α β : Type} (e : ε) (f : α → Except ε β) :
    (Except.error (α := α) e >>= f) = Except.error e := rfl

/-- The scheduler invariant is preserved across the whole layer fold. -/
theorem foldl_processLayer_inv (exec : TaskSpec → TaskResult) :
    ∀ (layers : List (List TaskSpec)) (Q : List TaskSpec) (s : SchedState),
      ((Q ++ layers.flatten).map TaskSpec.id).Nodup →
      (∀ t ∈ Q ++ layers.flatten, (exec t).taskId = t.id) →
      RespectFrom (Q.map TaskSpec.id) layers →
      SchedInv exec Q s →
      SchedInv exec (Q ++ layers.flatten)
        (layers.foldl (processLayer exec) s) := by
  intro layers
  induction layers with
  | nil =>
    intro Q s hnd hex hresp hinv
    rw [List.flatten_nil, List.append_nil]
    exact hinv
  | cons L rest ih =>
    intro Q s hnd hex hresp hinv
    obtain ⟨h0, hresp'⟩ := (respectFrom_cons _ _ _).mp hresp
    have happ : Q ++ (L :: rest).flatten = (Q ++ L) ++ rest.flatten := by
      rw [List.flatten_cons, List.append_assoc]
    have hnd2 : (((Q ++ L) ++ rest.flatten).map TaskSpec.id).Nodup := by
      rw [← happ]
      exact hnd
    have hndQL : ((Q ++ L).map TaskSpec.id).Nodup := by
      have h2 := hnd2
      rw [List.map_append, List.nodup_append] at h2
      exact h2.1
    have hex2 : ∀ t ∈ (Q ++ L) ++ rest.flatten, (exec t).taskId = t.id := by
      intro t ht
      refine hex t ?_
      rw [happ]
      exact ht
    have hstep := processLayer_inv exec Q L s hinv hndQL
      (fun t ht => hex2 t (List.mem_append_left _ ht)) h0
    have hresp2 : RespectFrom ((Q ++ L).map TaskSpec.id) rest := by
      rw [List.map_append]
      exact hresp'
    have hrec := ih (Q ++ L) (processLayer exec s L) hnd2 hex2 hresp2 hstep
    rw [List.foldl_cons, happ]
    exact hrec

/-- C4: in `runParallel`, a task one of whose dependencies has a recorded
result with a non-zero exit code (a failed dependency, or a skipped one,
whose synthesized result has exit code 1) runs no child process, and its
recorded result is exactly the synthesized skip record with exit code 1,
message "Skipped due to dependency failure" and error "Dependency failed". -/
theorem runParallel_skip_propagation (tasks : List TaskSpec)
    (exec : TaskSpec → TaskResult) (out : SchedState)
    (hwf : WellFormedTasks tasks)
    (hexec : ∀ t ∈ tasks, (exec t).taskId = t.id)
    (hok : runParallel tasks exec = .ok out)
    (t : TaskSpec) (ht : t ∈ tasks) (d : String) (hd : d ∈ t.dependencies)
    (r : TaskResult) (hr : r ∈ out.results)
    (hrid : r.taskId = d) (hrfail : ¬ r.exitCode = 0) :
    ¬ t.id ∈ out.executed ∧ skippedResult t.id ∈ out.results ∧
    ∀ r2 ∈ out.results, r2.taskId = t.id → r2 = skippedResult t.id := by
  cases htopo : topologicalSort tasks with
  | error e =>
    unfold runParallel at hok
    rw [htopo, except_bind_error] at hok
    exact absurd hok (by simp)
  | ok TL =>
    unfold runParallel at hok
    rw [htopo, except_bind_ok] at hok
    have hout : out = TL.foldl (processLayer exec) ⟨[], [], [], []⟩ :=
      (Except.ok.inj hok).symm
    obtain ⟨-, hok_props, -⟩ := topoSort_report tasks hwf
    obtain ⟨_, hplace, hrespect⟩ := hok_props TL htopo
    have hperm : TL.flatten.Perm tasks := hplace
    have hmemflat : ∀ u, u ∈ TL.flatten ↔ u ∈ tasks := fun u => hperm.mem_iff
    have hndflat :
        ((([] : List TaskSpec) ++ TL.flatten).map TaskSpec.id).Nodup := by
      simp only [List.nil_append]
      exact (hperm.map TaskSpec.id).nodup_iff.mpr hwf.1
    have hexflat : ∀ u ∈ ([] : List TaskSpec) ++ TL.flatten,
        (exec u).taskId = u.id := by
      intro u hu
      simp only [List.nil_append] at hu
      exact hexec u ((hmemflat u).mp hu)
    have hresp0 : RespectFrom (([] : List TaskSpec).map TaskSpec.id) TL :=
      (layersRespectDeps_respectFrom TL).mp hrespect
    have hinv0 : SchedInv exec [] ⟨[], [], [], []⟩ := by
      unfold SchedInv
      refine ⟨by simp, by simp, by simp, by simp, by simp, by simp, by simp⟩
    have hfinal := foldl_processLayer_inv exec TL [] ⟨[], [], [], []⟩
      hndflat hexflat hresp0 hinv0
    rw [← hout] at hfinal
    simp only [List.nil_append] at hfinal
    obtain ⟨f1, f2, _, _, _, _, f7⟩ := hfinal
    have htf : t ∈ TL.flatten := (hmemflat t).mpr ht
    have hskip : t.id ∈ out.skipped := f7 t htf d hd r hr hrid hrfail
    rcases f2 t htf with ⟨_, hb2, hc, _⟩ | ⟨ha, _, _, _⟩
    · refine ⟨hc, hb2, ?_⟩
      intro r2 hr2 hr2id
      have hndres : (out.results.map TaskResult.taskId).Nodup :=
        f1.nodup_iff.mpr ((hperm.map TaskSpec.id).nodup_iff.mpr hwf.1)
      exact List.inj_on_of_nodup_map hndres hr2 hb2 (by rw [hr2id]; rfl)
    · exact absurd hskip ha

/-- C4 witness: the hypotheses hold at the two-task chain with a failing
runner for `A`; `B` is skipped and not executed. -/
theorem runParallel_skip_propagation_witness :
    WellFormedTasks tasksChainFix ∧
    runParallel tasksChainFix execFailAFix = .ok outFix ∧
    (¬ "B" ∈ outFix.executed ∧ skippedResult "B" ∈ outFix.results ∧
      ∀ r2 ∈ outFix.results, r2.taskId = "B" → r2 = skippedResult "B") := by
  refine ⟨by decide, by rfl, ?_⟩
  exact runParallel_skip_propagation tasksChainFix execFailAFix outFix
    (by decide) (by decide) (by rfl) taskBFix (by decide) "A" (by decide)
    { taskId := "A", exitCode := 1 } (by decide) (by rfl) (by decide)

end CodeagentWrapper
